import Mathlib

/-!
Verification of the GTFS ingestion-and-query engine specified for this
repository.  The repository's own source is a type-declaration surface
(`src/unnamed/part_000`, the `gtfs` module declarations) plus thin HTTP
route handlers (`src/server/src/index.ts`).  The engine behind the declared
interface is modelled from the specification; the declaration surface and
the HTTP handlers are embedded from the source files directly.
-/

namespace Gtfs

/-! ## Decimal numerals: printing and parsing -/

/-- Character for a single decimal digit (`0 ≤ n ≤ 9`). -/
def digitChar (n : Nat) : Char := Char.ofNat (48 + n)

/-- Numeric value of a digit character. -/
def digitVal (c : Char) : Nat := c.toNat - 48

/-- Whether a character is a decimal digit. -/
def isDigitChar (c : Char) : Bool := 48 ≤ c.toNat && c.toNat ≤ 57

/-- Decimal digit printer with explicit fuel (structural recursion so that
concrete instances evaluate by reduction). -/
def natDigitsAux : Nat → Nat → List Char
  | 0, _ => []
  | fuel + 1, n =>
    if n < 10 then [digitChar n]
    else natDigitsAux fuel (n / 10) ++ [digitChar (n % 10)]

/-- Decimal digit string of a natural number, most significant first. -/
def natDigits (n : Nat) : List Char := natDigitsAux (n + 1) n

theorem natDigitsAux_irrel : ∀ (n fuel fuel' : Nat), n < fuel → n < fuel' →
    natDigitsAux fuel n = natDigitsAux fuel' n := by
  intro n
  induction n using Nat.strong_induction_on with
  | _ n ih =>
    intro fuel fuel' hf hf'
    cases fuel with
    | zero => omega
    | succ f =>
      cases fuel' with
      | zero => omega
      | succ f' =>
        rw [natDigitsAux, natDigitsAux]
        by_cases h10 : n < 10
        · rw [if_pos h10, if_pos h10]
        · rw [if_neg h10, if_neg h10,
            ih (n / 10) (by omega) f f' (by omega) (by omega)]

/-- Recurrence satisfied by `natDigits`. -/
theorem natDigits_eq (n : Nat) :
    natDigits n = if n < 10 then [digitChar n]
      else natDigits (n / 10) ++ [digitChar (n % 10)] := by
  rw [natDigits, natDigitsAux]
  by_cases h10 : n < 10
  · rw [if_pos h10, if_pos h10]
  · rw [if_neg h10, if_neg h10,
      natDigitsAux_irrel (n / 10) n (n / 10 + 1) (by omega) (by omega)]
    rfl

/-- Accumulator-style decimal parser over a list of characters. -/
def parseDigitsAux (acc : Nat) : List Char → Option Nat
  | [] => some acc
  | c :: cs => if isDigitChar c then parseDigitsAux (acc * 10 + digitVal c) cs else none

/-- Parse a nonempty string of decimal digits. -/
def parseDigits (cs : List Char) : Option Nat :=
  match cs with
  | [] => none
  | _ :: _ => parseDigitsAux 0 cs

theorem digitChar_spec (n : Nat) (h : n < 10) :
    isDigitChar (digitChar n) = true ∧ digitVal (digitChar n) = n ∧ digitChar n ≠ ':'
      ∧ digitChar n ≠ '-' := by
  interval_cases n <;> exact ⟨by decide, by decide, by decide, by decide⟩

theorem natDigits_ne_nil (n : Nat) : natDigits n ≠ [] := by
  rw [natDigits_eq]
  split <;> simp

theorem natDigits_all_digit (n : Nat) : ∀ c ∈ natDigits n, isDigitChar c = true := by
  induction n using Nat.strong_induction_on with
  | _ n ih =>
    rw [natDigits_eq]
    split
    · intro c hc
      simp only [List.mem_singleton] at hc
      subst hc
      exact (digitChar_spec n (by omega)).1
    · intro c hc
      rcases List.mem_append.mp hc with h1 | h2
      · exact ih (n / 10) (Nat.div_lt_self (by omega) (by omega)) c h1
      · simp only [List.mem_singleton] at h2
        subst h2
        exact (digitChar_spec (n % 10) (Nat.mod_lt _ (by omega))).1

theorem parseDigitsAux_append (acc : Nat) (xs ys : List Char) :
    parseDigitsAux acc (xs ++ ys) =
      match parseDigitsAux acc xs with
      | some a => parseDigitsAux a ys
      | none => none := by
  induction xs generalizing acc with
  | nil => simp [parseDigitsAux]
  | cons c cs ih =>
    simp only [List.cons_append, parseDigitsAux]
    split
    · exact ih _
    · rfl

theorem parseDigitsAux_natDigits (n : Nat) : ∀ acc : Nat,
    parseDigitsAux acc (natDigits n) = some (acc * 10 ^ (natDigits n).length + n) := by
  induction n using Nat.strong_induction_on with
  | _ n ih =>
    intro acc
    rw [natDigits_eq]
    split
    · rename_i h
      simp [parseDigitsAux, (digitChar_spec n h).1, (digitChar_spec n h).2.1]
    · rename_i h
      rw [parseDigitsAux_append]
      rw [ih (n / 10) (Nat.div_lt_self (by omega) (by omega)) acc]
      have hm : n % 10 < 10 := Nat.mod_lt _ (by omega)
      simp only [parseDigitsAux, (digitChar_spec _ hm).1, (digitChar_spec _ hm).2.1,
        if_pos, List.length_append, List.length_singleton]
      congr 1
      have hpow : 10 ^ ((natDigits (n / 10)).length + 1) =
          10 ^ (natDigits (n / 10)).length * 10 := pow_succ 10 _
      rw [hpow]
      have := Nat.div_add_mod n 10
      ring_nf
      omega

theorem parseDigits_natDigits (n : Nat) : parseDigits (natDigits n) = some n := by
  cases h : natDigits n with
  | nil => exact absurd h (natDigits_ne_nil n)
  | cons c cs =>
    have haux := parseDigitsAux_natDigits n 0
    rw [h] at haux
    simp [parseDigits, haux]

/-! ## GTFS time-of-day strings

Modelled from the spec: "time-of-day strings possibly exceeding 24:00 →
duration-seconds-since-midnight, not wall-clock time".  A time string is
`H…H:MM:SS` with arbitrary-width hours (allowing values ≥ 24) and two-digit
minutes and seconds below 60. -/

/-- Two-digit field (minutes or seconds) parser. -/
def parse2 (c1 c0 : Char) : Option Nat :=
  if isDigitChar c1 && isDigitChar c0 then some (digitVal c1 * 10 + digitVal c0) else none

/-- Two-digit field printer for `n < 100`. -/
def pad2 (n : Nat) : List Char := [digitChar (n / 10), digitChar (n % 10)]

/-- Modelled from the spec: parse a GTFS time-of-day string to elapsed
seconds since midnight, without reducing modulo 24 hours.  Hours may
exceed 24 (rollover times for trips crossing midnight). -/
def parseTime (cs : List Char) : Option Nat :=
  match cs.reverse with
  | s0 :: s1 :: ':' :: m0 :: m1 :: ':' :: hrev =>
    match parseDigits hrev.reverse, parse2 m1 m0, parse2 s1 s0 with
    | some h, some m, some s =>
      if m < 60 && s < 60 then some (h * 3600 + m * 60 + s) else none
    | _, _, _ => none
  | _ => none

/-- Print the time string for a triple of components. -/
def timeChars (h m s : Nat) : List Char :=
  natDigits h ++ ':' :: (pad2 m ++ ':' :: pad2 s)

/-- Modelled from the spec (Export Writer): durations back to time-of-day
strings, the inverse of the Feed Loader's coercion. -/
def formatTime (n : Nat) : List Char :=
  timeChars (n / 3600) (n % 3600 / 60) (n % 60)

theorem parse2_pad2 (n : Nat) (h : n < 100) :
    parse2 (pad2 n).head! (pad2 n).getLast! = some n := by
  have h1 : n / 10 < 10 := by omega
  have h2 : n % 10 < 10 := Nat.mod_lt _ (by omega)
  simp only [pad2, List.head!, List.getLast!]
  simp [parse2, (digitChar_spec _ h1).1, (digitChar_spec _ h2).1,
    (digitChar_spec _ h1).2.1, (digitChar_spec _ h2).2.1]
  omega

theorem parseTime_timeChars (h m s : Nat) (hm : m < 60) (hs : s < 60) :
    parseTime (timeChars h m s) = some (h * 3600 + m * 60 + s) := by
  have h1 : m / 10 < 10 := by omega
  have h2 : m % 10 < 10 := Nat.mod_lt _ (by omega)
  have h3 : s / 10 < 10 := by omega
  have h4 : s % 10 < 10 := Nat.mod_lt _ (by omega)
  have hrev : (timeChars h m s).reverse =
      digitChar (s % 10) :: digitChar (s / 10) :: ':' :: digitChar (m % 10)
        :: digitChar (m / 10) :: ':' :: (natDigits h).reverse := by
    simp [timeChars, pad2, List.reverse_append]
  rw [parseTime, hrev]
  simp only [List.reverse_reverse]
  rw [parseDigits_natDigits]
  simp only [parse2, (digitChar_spec _ h1).1, (digitChar_spec _ h2).1,
    (digitChar_spec _ h3).1, (digitChar_spec _ h4).1,
    (digitChar_spec _ h1).2.1, (digitChar_spec _ h2).2.1,
    (digitChar_spec _ h3).2.1, (digitChar_spec _ h4).2.1,
    Bool.and_self, if_pos]
  have hm10 : m / 10 * 10 + m % 10 = m := by omega
  have hs10 : s / 10 * 10 + s % 10 = s := by omega
  rw [hm10, hs10]
  simp [hm, hs]

theorem parseTime_formatTime (n : Nat) : parseTime (formatTime n) = some n := by
  have hm : n % 3600 / 60 < 60 := by omega
  have hs : n % 60 < 60 := Nat.mod_lt _ (by omega)
  rw [formatTime, parseTime_timeChars _ _ _ hm hs]
  congr 1
  omega

/-! ## Cell values and column coercion

Modelled from the spec (Data Model, Feed Loader): rows are tagged mappings
from column name to a typed value variant; cells are coerced per the
column's semantic type, with missing optional columns defaulting to null.
Coordinate values are modelled as integers: the claims under verification
do not depend on fractional precision. -/

/-- Typed value stored in a cell of the Relational Store. -/
inductive Value where
  | vNull : Value
  | vStr (s : String) : Value
  | vNum (n : Int) : Value
  deriving DecidableEq, Repr

/-- Semantic column type of the Schema Registry. -/
inductive CType where
  | tStr : CType
  | tTime : CType
  | tCoordOpt : CType
  deriving DecidableEq, Repr

/-- Parse an optionally-signed decimal integer. -/
def parseInt (cs : List Char) : Option Int :=
  match cs with
  | '-' :: rest => (parseDigits rest).map (fun k => -(Int.ofNat k))
  | _ => (parseDigits cs).map Int.ofNat

/-- Print a signed decimal integer. -/
def formatInt (n : Int) : List Char :=
  if n < 0 then '-' :: natDigits n.natAbs else natDigits n.natAbs

theorem parseInt_formatInt (n : Int) : parseInt (formatInt n) = some n := by
  rw [formatInt]
  split
  · rename_i hneg
    show (parseDigits (natDigits n.natAbs)).map (fun k => -(Int.ofNat k)) = some n
    rw [parseDigits_natDigits]
    show some (-(Int.ofNat n.natAbs)) = some n
    rw [Int.ofNat_eq_natCast]
    congr 1
    omega
  · rename_i hpos
    cases h : natDigits n.natAbs with
    | nil => exact absurd h (natDigits_ne_nil _)
    | cons c cs =>
      have hd : isDigitChar c = true := by
        have hall := natDigits_all_digit n.natAbs c
        rw [h] at hall
        exact hall (List.mem_cons_self c cs)
      have hne : c ≠ '-' := by
        intro hc
        rw [hc] at hd
        exact absurd hd (by decide)
      have hp := parseDigits_natDigits n.natAbs
      rw [h] at hp
      rw [parseInt.eq_def]
      split
      · rename_i rest heq
        exact absurd (List.cons.inj heq).1 hne
      · rw [hp]
        show some (Int.ofNat n.natAbs) = some n
        rw [Int.ofNat_eq_natCast]
        congr 1
        omega

/-- Modelled from the spec (Feed Loader): coerce one raw CSV cell per its
column type.  `none` as input means the column is absent from the row;
`none` as output means the row fails type coercion (dropped with a
warning). -/
def coerceCell : CType → Option String → Option Value
  | .tStr, cell => some (.vStr (cell.getD ""))
  | .tTime, some cell => (parseTime cell.data).map (fun k => .vNum (Int.ofNat k))
  | .tTime, none => none
  | .tCoordOpt, none => some .vNull
  | .tCoordOpt, some cell =>
      if cell = "" then some .vNull else (parseInt cell.data).map .vNum

/-- Modelled from the spec (Export Writer): the inverse of the Feed
Loader's type coercion, serializing one stored value back to a CSV cell. -/
def formatCell : CType → Value → String
  | .tStr, .vStr s => s
  | .tTime, .vNum n => String.mk (formatTime n.toNat)
  | .tCoordOpt, .vNull => ""
  | .tCoordOpt, .vNum n => String.mk (formatInt n)
  | _, _ => ""

/-- Whether a stored value is well typed for a column type; coercion only
ever produces well-typed values. -/
def wellTypedValue : CType → Value → Bool
  | .tStr, .vStr _ => true
  | .tTime, .vNum n => decide (0 ≤ n)
  | .tCoordOpt, .vNull => true
  | .tCoordOpt, .vNum _ => true
  | _, _ => false

theorem coerceCell_wellTyped {ty : CType} {cell : Option String} {v : Value}
    (h : coerceCell ty cell = some v) : wellTypedValue ty v = true := by
  cases ty with
  | tStr =>
    have hv : Value.vStr (cell.getD "") = v := by
      simpa only [coerceCell, Option.some.injEq] using h
    rw [← hv]
    rfl
  | tTime =>
    cases cell with
    | none => simp [coerceCell] at h
    | some s =>
      simp only [coerceCell, Option.map_eq_some'] at h
      obtain ⟨k, _, hk⟩ := h
      rw [← hk]
      simp only [wellTypedValue, decide_eq_true_eq, Int.ofNat_eq_natCast]
      omega
  | tCoordOpt =>
    cases cell with
    | none =>
      have hv : Value.vNull = v := by
        simpa only [coerceCell, Option.some.injEq] using h
      rw [← hv]
      rfl
    | some s =>
      simp only [coerceCell] at h
      split at h
      · have hv : Value.vNull = v := by simpa only [Option.some.injEq] using h
        rw [← hv]
        rfl
      · simp only [Option.map_eq_some'] at h
        obtain ⟨k, _, hk⟩ := h
        rw [← hk]
        rfl

theorem natDigits_mk_ne_empty (k : Nat) : String.mk (natDigits k) ≠ "" := by
  intro h
  have : natDigits k = [] := by
    have := congrArg String.data h
    simpa using this
  exact natDigits_ne_nil k this

/-- Round-trip at the level of a single cell: formatting a well-typed
value and coercing it back restores the value. -/
theorem coerceCell_formatCell {ty : CType} {v : Value}
    (h : wellTypedValue ty v = true) :
    coerceCell ty (some (formatCell ty v)) = some v := by
  cases ty with
  | tStr =>
    cases v with
    | vStr s => simp [coerceCell, formatCell]
    | vNull => exact absurd h (by simp [wellTypedValue])
    | vNum n => exact absurd h (by simp [wellTypedValue])
  | tTime =>
    cases v with
    | vNum n =>
      simp only [wellTypedValue, decide_eq_true_eq] at h
      show ((parseTime (String.mk (formatTime n.toNat)).data).map
        (fun k => Value.vNum (Int.ofNat k))) = some (Value.vNum n)
      have hdata : (String.mk (formatTime n.toNat)).data = formatTime n.toNat := rfl
      rw [hdata, parseTime_formatTime]
      show some (Value.vNum (Int.ofNat n.toNat)) = some (Value.vNum n)
      rw [Int.ofNat_eq_natCast]
      congr 2
      omega
    | vNull => exact absurd h (by simp [wellTypedValue])
    | vStr s => exact absurd h (by simp [wellTypedValue])
  | tCoordOpt =>
    cases v with
    | vNull => decide
    | vNum n =>
      show (if String.mk (formatInt n) = "" then some Value.vNull
        else (parseInt (String.mk (formatInt n)).data).map Value.vNum) = some (Value.vNum n)
      rw [if_neg]
      · have hdata : (String.mk (formatInt n)).data = formatInt n := rfl
        rw [hdata, parseInt_formatInt]
        rfl
      · rw [formatInt]
        split
        · intro hc
          have hdc := congrArg String.data hc
          simp at hdc
        · exact natDigits_mk_ne_empty _
    | vStr s => exact absurd h (by simp [wellTypedValue])

/-! ## Rows, schemas, row coercion and export -/

/-- Stored row: column name paired with a typed value, in schema order. -/
abbrev Row := List (String × Value)

/-- Raw CSV row: column name (from the header) paired with the cell text. -/
abbrev RawRow := List (String × String)

/-- Association-list lookup by key (first match wins). -/
def alookup {β : Type} (k : String) : List (String × β) → Option β
  | [] => none
  | e :: rest => if e.1 = k then some e.2 else alookup k rest

/-- Modelled from the spec (Schema Registry): per-table metadata — the
table name, its columns with semantic types, its primary-key columns and
whether the table is required for a valid feed. -/
structure TableSchema where
  name : String
  cols : List (String × CType)
  pk : List String
  required : Bool
  deriving DecidableEq, Repr

/-- Column names of a schema. -/
def schemaFields (cols : List (String × CType)) : List String := cols.map (·.1)

/-- Modelled from the spec (Feed Loader): header-driven coercion of one raw
row against the column list; unknown columns are ignored, missing optional
columns default to null, and a row whose cells fail coercion is rejected. -/
def coerceRow (cols : List (String × CType)) (raw : RawRow) : Option Row :=
  match cols with
  | [] => some []
  | c :: rest =>
    match coerceCell c.2 (alookup c.1 raw), coerceRow rest raw with
    | some v, some vs => some ((c.1, v) :: vs)
    | _, _ => none

/-- Modelled from the spec (Export Writer): serialize one stored row back
to raw CSV cells, one per schema column. -/
def exportRow (cols : List (String × CType)) (row : Row) : RawRow :=
  match cols, row with
  | c :: cs, e :: rest => (c.1, formatCell c.2 e.2) :: exportRow cs rest
  | _, _ => []

/-- Whether a stored row is shaped by the column list: same names in schema
order, each value well typed for its column. -/
def wellTypedRow (cols : List (String × CType)) (row : Row) : Bool :=
  match cols, row with
  | [], [] => true
  | c :: cs, e :: rest => e.1 = c.1 && wellTypedValue c.2 e.2 && wellTypedRow cs rest
  | _, _ => false

theorem coerceRow_wellTyped {cols : List (String × CType)} {raw : RawRow} {row : Row}
    (h : coerceRow cols raw = some row) : wellTypedRow cols row = true := by
  induction cols generalizing row with
  | nil =>
    simp only [coerceRow, Option.some.injEq] at h
    rw [← h]
    rfl
  | cons c rest ih =>
    have h' : (match coerceCell c.2 (alookup c.1 raw), coerceRow rest raw with
      | some v, some vs => some ((c.1, v) :: vs)
      | _, _ => none) = some row := h
    cases hv : coerceCell c.2 (alookup c.1 raw) with
    | none =>
      rw [hv] at h'
      simp at h'
    | some v =>
      cases hvs : coerceRow rest raw with
      | none =>
        rw [hv, hvs] at h'
        simp at h'
      | some vs =>
        rw [hv, hvs] at h'
        simp only [Option.some.injEq] at h'
        rw [← h']
        simp only [wellTypedRow, Bool.and_eq_true, decide_eq_true_eq]
        exact ⟨⟨trivial, coerceCell_wellTyped hv⟩, ih hvs⟩

theorem wellTypedRow_names {cols : List (String × CType)} {row : Row}
    (h : wellTypedRow cols row = true) : row.map (·.1) = schemaFields cols := by
  induction cols generalizing row with
  | nil =>
    cases row with
    | nil => rfl
    | cons e rest => exact absurd h (by simp [wellTypedRow])
  | cons c rest ih =>
    cases row with
    | nil => exact absurd h (by simp [wellTypedRow])
    | cons e r =>
      simp only [wellTypedRow, Bool.and_eq_true, decide_eq_true_eq] at h
      have htail := ih h.2
      simp only [schemaFields] at htail ⊢
      simp only [List.map_cons, htail, h.1.1]

/-- Coercion of a row ignores a leading raw cell whose column name is not
consulted by any schema column. -/
theorem coerceRow_cons_notMem (cols : List (String × CType)) (k : String) (x : String)
    (raw : RawRow) (hk : k ∉ schemaFields cols) :
    coerceRow cols ((k, x) :: raw) = coerceRow cols raw := by
  induction cols with
  | nil => rfl
  | cons c rest ih =>
    have hne : c.1 ≠ k := by
      intro hc
      exact hk (by simp [schemaFields, hc])
    have hskip : alookup c.1 ((k, x) :: raw) = alookup c.1 raw := by
      show (if k = c.1 then some x else alookup c.1 raw) = alookup c.1 raw
      rw [if_neg (fun hc => hne hc.symm)]
    have hkrest : k ∉ schemaFields rest := by
      intro hm
      exact hk (by simp [schemaFields] at hm ⊢; exact Or.inr hm)
    show (match coerceCell c.2 (alookup c.1 ((k, x) :: raw)),
        coerceRow rest ((k, x) :: raw) with
      | some v, some vs => some ((c.1, v) :: vs)
      | _, _ => none) =
      (match coerceCell c.2 (alookup c.1 raw), coerceRow rest raw with
      | some v, some vs => some ((c.1, v) :: vs)
      | _, _ => none)
    rw [hskip, ih hkrest]

/-- Round-trip at the level of one row: exporting a well-typed row and
coercing the result back restores the row, provided column names are
distinct. -/
theorem coerceRow_exportRow {cols : List (String × CType)} {row : Row}
    (hnd : (schemaFields cols).Nodup) (h : wellTypedRow cols row = true) :
    coerceRow cols (exportRow cols row) = some row := by
  induction cols generalizing row with
  | nil =>
    cases row with
    | nil => rfl
    | cons e rest => exact absurd h (by simp [wellTypedRow])
  | cons c rest ih =>
    cases row with
    | nil => exact absurd h (by simp [wellTypedRow])
    | cons e r =>
      simp only [wellTypedRow, Bool.and_eq_true, decide_eq_true_eq] at h
      obtain ⟨⟨hname, hwtv⟩, hwtr⟩ := h
      simp only [schemaFields, List.map_cons, List.nodup_cons] at hnd
      have hlook : alookup c.1 ((c.1, formatCell c.2 e.2) :: exportRow rest r) =
          some (formatCell c.2 e.2) := by
        show (if c.1 = c.1 then some (formatCell c.2 e.2)
          else alookup c.1 (exportRow rest r)) = some (formatCell c.2 e.2)
        rw [if_pos rfl]
      have hnd1 : c.1 ∉ schemaFields rest := by
        intro hm
        exact hnd.1 (by simpa [schemaFields] using hm)
      show (match coerceCell c.2 (alookup c.1 ((c.1, formatCell c.2 e.2) :: exportRow rest r)),
          coerceRow rest ((c.1, formatCell c.2 e.2) :: exportRow rest r) with
        | some v, some vs => some ((c.1, v) :: vs)
        | _, _ => none) = some (e :: r)
      rw [hlook, coerceRow_cons_notMem rest c.1 _ (exportRow rest r) hnd1]
      rw [ih hnd.2 hwtr, coerceCell_formatCell hwtv]
      show some ((c.1, e.2) :: r) = some (e :: r)
      rw [← hname]

/-! ## Relational Store and the Feed Loader

Modelled from the spec (Relational Store, Feed Loader): tabular storage in
which every row is tagged with its owning agency key; an import parses all
tables, and only on full success replaces the agency's dataset as a single
atomic unit. -/

/-- Relational Store: association of table name to its rows, each tagged
with the owning agency key, in insertion order.  Later entries for the
same table name shadow earlier ones. -/
abbrev Store := List (String × List (String × Row))

/-- The empty store. -/
def emptyStore : Store := []

/-- All tagged rows of one table. -/
def storeRows (st : Store) (tbl : String) : List (String × Row) :=
  (alookup tbl st).getD []

/-- Rows of one table owned by one agency key, in insertion order. -/
def agencyRows (st : Store) (key tbl : String) : List Row :=
  ((storeRows st tbl).filter (fun p => decide (p.1 = key))).map (·.2)

/-- Modelled from the spec (`replaceAgency`): delete all rows tagged with
the given agency key across all tables. -/
def removeAgency (st : Store) (key : String) : Store :=
  st.map (fun e => (e.1, e.2.filter (fun p => !(decide (p.1 = key)))))

/-- Append freshly imported rows for one table, tagged with the agency key. -/
def insertRows (st : Store) (tbl key : String) (rows : List Row) : Store :=
  (tbl, storeRows st tbl ++ rows.map (fun r => (key, r))) :: st

/-- Write all parsed tables of one import into the store. -/
def applyParsed (key : String) (parsed : List (String × List Row)) (st : Store) : Store :=
  match parsed with
  | [] => st
  | (tbl, rows) :: rest => applyParsed key rest (insertRows st tbl key rows)

/-- Modelled from the spec (Error Handling taxonomy): fatal import errors. -/
inductive ImportError where
  | missingRequiredTable (table : String) : ImportError
  | duplicateKey (table : String) : ImportError
  deriving DecidableEq, Repr

/-- A GTFS feed source: table name to its raw CSV rows. -/
abbrev Feed := List (String × List RawRow)

/-- Primary-key value tuple of a row. -/
def rowKey (pk : List String) (row : Row) : List (Option Value) :=
  pk.map (fun f => alookup f row)

/-- Modelled from the spec (Feed Loader): parse one table's raw rows; rows
failing type coercion are dropped (warning level). -/
def parseTable (ts : TableSchema) (raw : List RawRow) : List Row :=
  raw.filterMap (coerceRow ts.cols)

/-- Executable duplicate check over a list of key tuples. -/
def keysNodup : List (List (Option Value)) → Bool
  | [] => true
  | k :: rest => !rest.contains k && keysNodup rest

theorem keysNodup_iff (l : List (List (Option Value))) :
    keysNodup l = true ↔ l.Nodup := by
  induction l with
  | nil => simp [keysNodup]
  | cons k rest ih =>
    simp [keysNodup, ih, List.nodup_cons]

/-- Modelled from the spec (Feed Loader algorithm): walk the Schema
Registry; a missing required table or a primary-key duplicate within one
table is fatal; excluded tables and missing optional tables are skipped. -/
def importTables (registry : List TableSchema) (exclude : List String) (feed : Feed) :
    Except ImportError (List (String × List Row)) :=
  match registry with
  | [] => .ok []
  | ts :: rest =>
    if ts.name ∈ exclude then
      (importTables rest exclude feed).map (fun acc => (ts.name, []) :: acc)
    else
      match alookup ts.name feed with
      | none =>
        if ts.required then .error (.missingRequiredTable ts.name)
        else (importTables rest exclude feed).map (fun acc => (ts.name, []) :: acc)
      | some raw =>
        if keysNodup ((parseTable ts raw).map (rowKey ts.pk)) then
          (importTables rest exclude feed).map
            (fun acc => (ts.name, parseTable ts raw) :: acc)
        else .error (.duplicateKey ts.name)

/-- Modelled from the spec (`importFeed`): parse and validate the whole
feed first; only on success replace the agency's dataset in the store as
one atomic unit.  On any fatal error the store is not touched. -/
def importFeed (registry : List TableSchema) (st : Store) (key : String)
    (exclude : List String) (feed : Feed) : Except ImportError Store :=
  (importTables registry exclude feed).map
    (fun parsed => applyParsed key parsed (removeAgency st key))

/-- Store visible after an import attempt: the new store on success, the
untouched previous store on failure (transaction rollback). -/
def runImport (registry : List TableSchema) (st : Store) (key : String)
    (exclude : List String) (feed : Feed) : Store :=
  match importFeed registry st key exclude feed with
  | .ok st' => st'
  | .error _ => st

/-- Modelled from the spec (`exportAgency`): for each table with at least
one row for the agency, write its rows back to CSV via the inverse type
coercion. -/
def exportAgency (registry : List TableSchema) (st : Store) (key : String) : Feed :=
  (registry.filter (fun ts => !(agencyRows st key ts.name).isEmpty)).map
    (fun ts => (ts.name, (agencyRows st key ts.name).map (exportRow ts.cols)))

/-- Well-formed registry: table names are distinct and each table's column
names are distinct. -/
def registryWF (registry : List TableSchema) : Prop :=
  (registry.map (·.name)).Nodup ∧ ∀ ts ∈ registry, (schemaFields ts.cols).Nodup

instance (registry : List TableSchema) : Decidable (registryWF registry) := by
  unfold registryWF
  infer_instance

/-! ## Store lemmas -/

theorem alookup_eq_none {β : Type} {k : String} {l : List (String × β)}
    (h : k ∉ l.map (·.1)) : alookup k l = none := by
  induction l with
  | nil => rfl
  | cons e rest ih =>
    have hne : e.1 ≠ k := fun hc => h (by
      rw [List.map_cons, hc]
      exact List.mem_cons_self _ _)
    have h' : k ∉ rest.map (·.1) := fun hm => h (by
      rw [List.map_cons]
      exact List.mem_cons_of_mem _ hm)
    show (if e.1 = k then some e.2 else alookup k rest) = none
    rw [if_neg hne, ih h']

theorem alookup_isSome_of_mem {β : Type} {k : String} {l : List (String × β)}
    (h : k ∈ l.map (·.1)) : ∃ v, alookup k l = some v := by
  induction l with
  | nil => simp at h
  | cons e rest ih =>
    by_cases hc : e.1 = k
    · exact ⟨e.2, by show (if e.1 = k then some e.2 else _) = _; rw [if_pos hc]⟩
    · have h' : k ∈ rest.map (·.1) := by
        rw [List.map_cons] at h
        rcases List.mem_cons.mp h with h1 | h2
        · exact absurd h1.symm hc
        · exact h2
      obtain ⟨v, hv⟩ := ih h'
      exact ⟨v, by show (if e.1 = k then some e.2 else _) = _; rw [if_neg hc, hv]⟩

theorem storeRows_cons (e : String × List (String × Row)) (l : Store) (tbl : String) :
    storeRows (e :: l) tbl = if e.1 = tbl then e.2 else storeRows l tbl := by
  show ((if e.1 = tbl then some e.2 else alookup tbl l)).getD [] = _
  split <;> rfl

theorem storeRows_removeAgency (st : Store) (key tbl : String) :
    storeRows (removeAgency st key) tbl =
      (storeRows st tbl).filter (fun p => !(decide (p.1 = key))) := by
  induction st with
  | nil => rfl
  | cons e rest ih =>
    simp only [removeAgency, List.map_cons] at ih ⊢
    rw [storeRows_cons, storeRows_cons]
    by_cases h : e.1 = tbl
    · rw [if_pos h, if_pos h]
    · rw [if_neg h, if_neg h, ih]

theorem storeRows_insertRows_self (st : Store) (tbl key : String) (rows : List Row) :
    storeRows (insertRows st tbl key rows) tbl =
      storeRows st tbl ++ rows.map (fun r => (key, r)) := by
  rw [insertRows, storeRows_cons, if_pos rfl]

theorem storeRows_insertRows_other (st : Store) (t tbl key : String) (rows : List Row)
    (h : t ≠ tbl) : storeRows (insertRows st t key rows) tbl = storeRows st tbl := by
  rw [insertRows, storeRows_cons, if_neg h]

theorem storeRows_applyParsed_none (key : String) (parsed : List (String × List Row))
    (st : Store) (tbl : String) (h : tbl ∉ parsed.map (·.1)) :
    storeRows (applyParsed key parsed st) tbl = storeRows st tbl := by
  induction parsed generalizing st with
  | nil => rfl
  | cons e rest ih =>
    have hne : e.1 ≠ tbl := fun hc => h (by
      rw [List.map_cons, hc]
      exact List.mem_cons_self _ _)
    have hrest : tbl ∉ rest.map (·.1) := fun hm => h (by
      rw [List.map_cons]
      exact List.mem_cons_of_mem _ hm)
    show storeRows (applyParsed key rest (insertRows st e.1 key e.2)) tbl = storeRows st tbl
    rw [ih (insertRows st e.1 key e.2) hrest,
      storeRows_insertRows_other st e.1 tbl key e.2 hne]

theorem storeRows_applyParsed_some (key : String) (parsed : List (String × List Row))
    (st : Store) (tbl : String) (rows : List Row)
    (hnd : (parsed.map (·.1)).Nodup) (h : alookup tbl parsed = some rows) :
    storeRows (applyParsed key parsed st) tbl =
      storeRows st tbl ++ rows.map (fun r => (key, r)) := by
  induction parsed generalizing st with
  | nil => simp [alookup] at h
  | cons e rest ih =>
    have h' : (if e.1 = tbl then some e.2 else alookup tbl rest) = some rows := h
    simp only [List.map_cons, List.nodup_cons] at hnd
    by_cases hc : e.1 = tbl
    · rw [if_pos hc] at h'
      have he2 : e.2 = rows := by simpa using h'
      have hrest : tbl ∉ rest.map (·.1) := by
        rw [← hc]
        exact hnd.1
      show storeRows (applyParsed key rest (insertRows st e.1 key e.2)) tbl = _
      rw [storeRows_applyParsed_none key rest _ tbl hrest, hc,
        storeRows_insertRows_self st tbl key e.2, he2]
    · rw [if_neg hc] at h'
      show storeRows (applyParsed key rest (insertRows st e.1 key e.2)) tbl = _
      rw [ih _ hnd.2 h', storeRows_insertRows_other st e.1 tbl key e.2 hc]

theorem filter_key_of_removed (l : List (String × Row)) (key k' : String) (h : k' ≠ key) :
    (l.filter (fun p => !(decide (p.1 = key)))).filter (fun p => decide (p.1 = k')) =
      l.filter (fun p => decide (p.1 = k')) := by
  induction l with
  | nil => rfl
  | cons p rest ih =>
    have hsym : key ≠ k' := fun hc => h hc.symm
    by_cases hk : p.1 = key
    · have hk' : ¬ p.1 = k' := by rw [hk]; exact hsym
      simp [List.filter_cons, hk, hk', h, hsym, ih]
    · by_cases hk2 : p.1 = k' <;> simp [List.filter_cons, hk, hk2, h, hsym, ih]

/-! ## Import lemmas -/

/-- Rows an import contributes for one registry table: none when the table
is excluded or absent, the parsed rows otherwise. -/
def tableImportResult (ts : TableSchema) (exclude : List String) (feed : Feed) : List Row :=
  if ts.name ∈ exclude then []
  else
    match alookup ts.name feed with
    | none => []
    | some raw => parseTable ts raw

theorem except_map_ok {ε α β : Type} (g : α → β) (x : Except ε α) (y : β)
    (h : x.map g = .ok y) : ∃ a, x = .ok a ∧ y = g a := by
  cases x with
  | error e => simp [Except.map] at h
  | ok a =>
    refine ⟨a, rfl, ?_⟩
    have : Except.ok (ε := ε) (g a) = Except.ok y := h
    simpa using this.symm

theorem importTables_cons (t : TableSchema) (rest : List TableSchema)
    (exclude : List String) (feed : Feed) :
    importTables (t :: rest) exclude feed =
      if t.name ∈ exclude then
        (importTables rest exclude feed).map (fun acc => (t.name, []) :: acc)
      else
        match alookup t.name feed with
        | none =>
          if t.required then .error (.missingRequiredTable t.name)
          else (importTables rest exclude feed).map (fun acc => (t.name, []) :: acc)
        | some raw =>
          if keysNodup ((parseTable t raw).map (rowKey t.pk)) then
            (importTables rest exclude feed).map
              (fun acc => (t.name, parseTable t raw) :: acc)
          else .error (.duplicateKey t.name) := rfl

theorem importTables_cons_ok {t : TableSchema} {rest : List TableSchema}
    {exclude : List String} {feed : Feed} {parsed : List (String × List Row)}
    (h : importTables (t :: rest) exclude feed = .ok parsed) :
    ∃ acc, importTables rest exclude feed = .ok acc ∧
      parsed = (t.name, tableImportResult t exclude feed) :: acc := by
  rw [importTables_cons] at h
  by_cases hexc : t.name ∈ exclude
  · rw [if_pos hexc] at h
    obtain ⟨acc, hacc, hp⟩ := except_map_ok _ _ _ h
    exact ⟨acc, hacc, by rw [hp, tableImportResult, if_pos hexc]⟩
  · rw [if_neg hexc] at h
    cases hfeed : alookup t.name feed with
    | none =>
      simp only [hfeed] at h
      cases hreq : t.required with
      | true => simp [hreq] at h
      | false =>
        rw [hreq] at h
        simp only [Bool.false_eq_true, if_false] at h
        obtain ⟨acc, hacc, hp⟩ := except_map_ok _ _ _ h
        exact ⟨acc, hacc, by rw [hp, tableImportResult, if_neg hexc, hfeed]⟩
    | some raw =>
      simp only [hfeed] at h
      by_cases hkeys : keysNodup ((parseTable t raw).map (rowKey t.pk)) = true
      · rw [if_pos hkeys] at h
        obtain ⟨acc, hacc, hp⟩ := except_map_ok _ _ _ h
        exact ⟨acc, hacc, by rw [hp, tableImportResult, if_neg hexc, hfeed]⟩
      · rw [if_neg hkeys] at h
        simp at h

theorem importTables_names {registry : List TableSchema} {exclude : List String}
    {feed : Feed} {parsed : List (String × List Row)}
    (h : importTables registry exclude feed = .ok parsed) :
    parsed.map (·.1) = registry.map (·.name) := by
  induction registry generalizing parsed with
  | nil =>
    have : parsed = [] := by simpa [importTables] using h.symm
    rw [this]
    rfl
  | cons t rest ih =>
    obtain ⟨acc, hacc, hp⟩ := importTables_cons_ok h
    rw [hp, List.map_cons, List.map_cons, ih hacc]

theorem importTables_lookup {registry : List TableSchema} {exclude : List String}
    {feed : Feed} {parsed : List (String × List Row)} {ts : TableSchema}
    (hnd : (registry.map (·.name)).Nodup)
    (h : importTables registry exclude feed = .ok parsed) (hts : ts ∈ registry) :
    alookup ts.name parsed = some (tableImportResult ts exclude feed) := by
  induction registry generalizing parsed with
  | nil => simp at hts
  | cons t rest ih =>
    obtain ⟨acc, hacc, hp⟩ := importTables_cons_ok h
    simp only [List.map_cons, List.nodup_cons] at hnd
    rcases List.mem_cons.mp hts with heq | hmem
    · rw [hp, heq]
      show (if t.name = t.name then some (tableImportResult t exclude feed)
        else alookup t.name acc) = some (tableImportResult t exclude feed)
      rw [if_pos rfl]
    · have hne : t.name ≠ ts.name := by
        intro hc
        exact hnd.1 (hc ▸ List.mem_map.mpr ⟨ts, hmem, rfl⟩)
      rw [hp]
      show (if t.name = ts.name then some (tableImportResult t exclude feed)
        else alookup ts.name acc) = _
      rw [if_neg hne, ih hnd.2 hacc hmem]

theorem importTables_ok_keys {registry : List TableSchema} {exclude : List String}
    {feed : Feed} {parsed : List (String × List Row)} {ts : TableSchema}
    (h : importTables registry exclude feed = .ok parsed) (hts : ts ∈ registry) :
    keysNodup ((tableImportResult ts exclude feed).map (rowKey ts.pk)) = true := by
  induction registry generalizing parsed with
  | nil => simp at hts
  | cons t rest ih =>
    rcases List.mem_cons.mp hts with heq | hmem
    · subst heq
      rw [importTables_cons] at h
      by_cases hexc : ts.name ∈ exclude
      · rw [tableImportResult, if_pos hexc]
        rfl
      · rw [if_neg hexc] at h
        cases hfeed : alookup ts.name feed with
        | none =>
          rw [tableImportResult, if_neg hexc, hfeed]
          rfl
        | some raw =>
          simp only [hfeed] at h
          by_cases hkeys : keysNodup ((parseTable ts raw).map (rowKey ts.pk)) = true
          · rw [tableImportResult, if_neg hexc, hfeed]
            exact hkeys
          · rw [if_neg hkeys] at h
            simp at h
    · obtain ⟨acc, hacc, _⟩ := importTables_cons_ok h
      exact ih hacc hmem

theorem importTables_error_of_dup {registry : List TableSchema} {exclude : List String}
    {feed : Feed} {ts : TableSchema} {raw : List RawRow}
    (hts : ts ∈ registry) (hexc : ts.name ∉ exclude)
    (hfeed : alookup ts.name feed = some raw)
    (hdup : ¬ ((parseTable ts raw).map (rowKey ts.pk)).Nodup) :
    ∃ e, importTables registry exclude feed = .error e := by
  induction registry with
  | nil => simp at hts
  | cons t rest ih =>
    rcases List.mem_cons.mp hts with heq | hmem
    · subst heq
      refine ⟨.duplicateKey ts.name, ?_⟩
      rw [importTables_cons, if_neg hexc]
      simp only [hfeed]
      rw [if_neg (fun hk => hdup ((keysNodup_iff _).mp hk))]
    · obtain ⟨e, he⟩ := ih hmem
      rw [importTables_cons]
      by_cases hexc2 : t.name ∈ exclude
      · rw [if_pos hexc2, he]
        exact ⟨e, rfl⟩
      · rw [if_neg hexc2]
        cases hfeed2 : alookup t.name feed with
        | none =>
          cases hreq : t.required with
          | true => exact ⟨.missingRequiredTable t.name, by simp⟩
          | false => exact ⟨e, by simp [he, Except.map]⟩
        | some raw2 =>
          by_cases hkeys : keysNodup ((parseTable t raw2).map (rowKey t.pk)) = true
          · exact ⟨e, by simp [hkeys, he, Except.map]⟩
          · exact ⟨.duplicateKey t.name, by simp [hkeys]⟩

theorem filter_key_remove_self (l : List (String × Row)) (key : String) :
    (l.filter (fun p => !(decide (p.1 = key)))).filter (fun p => decide (p.1 = key)) = [] := by
  induction l with
  | nil => rfl
  | cons p rest ih => by_cases hk : p.1 = key <;> simp [List.filter_cons, hk, ih]

theorem filter_map_key_self (res : List Row) (key : String) :
    ((res.map (fun r => (key, r))).filter (fun p => decide (p.1 = key))).map (·.2) = res := by
  induction res with
  | nil => rfl
  | cons r rest ih => simp [List.filter_cons, ih]

theorem filter_map_key_other (res : List Row) (key k' : String) (h : k' ≠ key) :
    (res.map (fun r => (key, r))).filter (fun p => decide (p.1 = k')) = [] := by
  induction res with
  | nil => rfl
  | cons r rest ih =>
    have hne : ¬ key = k' := fun hc => h hc.symm
    simp [List.filter_cons, hne, ih]

/-- Central characterization of a successful import: the agency's dataset
becomes exactly the parsed feed (table by table), other agencies are
untouched, and the agency has no rows in tables outside the registry. -/
theorem importFeed_ok_spec {registry : List TableSchema} {exclude : List String}
    {feed : Feed} {st : Store} {key : String} {s' : Store}
    (hnd : (registry.map (·.name)).Nodup)
    (h : importFeed registry st key exclude feed = .ok s') :
    (∀ ts ∈ registry, agencyRows s' key ts.name = tableImportResult ts exclude feed)
    ∧ (∀ k', k' ≠ key → ∀ tbl, agencyRows s' k' tbl = agencyRows st k' tbl)
    ∧ (∀ tbl, tbl ∉ registry.map (·.name) → agencyRows s' key tbl = []) := by
  obtain ⟨parsed, hparsed, hs⟩ := except_map_ok _ _ _ h
  have hnames := importTables_names hparsed
  have hpnd : (parsed.map (·.1)).Nodup := by rw [hnames]; exact hnd
  refine ⟨?_, ?_, ?_⟩
  · intro ts hts
    have hlook := importTables_lookup hnd hparsed hts
    have hrows := storeRows_applyParsed_some key parsed (removeAgency st key) ts.name _
      hpnd hlook
    rw [hs, agencyRows, hrows, List.filter_append, List.map_append,
      storeRows_removeAgency, filter_key_remove_self, filter_map_key_self]
    rfl
  · intro k' hk' tbl
    by_cases hmem : tbl ∈ parsed.map (·.1)
    · obtain ⟨res, hres⟩ := alookup_isSome_of_mem hmem
      have hrows := storeRows_applyParsed_some key parsed (removeAgency st key) tbl _
        hpnd hres
      rw [hs, agencyRows, hrows, List.filter_append, storeRows_removeAgency,
        filter_key_of_removed _ _ _ hk', filter_map_key_other _ _ _ hk',
        List.append_nil]
      rfl
    · have hrows := storeRows_applyParsed_none key parsed (removeAgency st key) tbl hmem
      rw [hs, agencyRows, hrows, storeRows_removeAgency,
        filter_key_of_removed _ _ _ hk']
      rfl
  · intro tbl hmem
    have hmem' : tbl ∉ parsed.map (·.1) := by rw [hnames]; exact hmem
    have hrows := storeRows_applyParsed_none key parsed (removeAgency st key) tbl hmem'
    rw [hs, agencyRows, hrows, storeRows_removeAgency, filter_key_remove_self]
    rfl

theorem runImport_error {registry : List TableSchema} {exclude : List String}
    {feed : Feed} {st : Store} {key : String} {e : ImportError}
    (h : importFeed registry st key exclude feed = .error e) :
    runImport registry st key exclude feed = st := by
  rw [runImport, h]

theorem importTables_ok_of {registry : List TableSchema} {exclude : List String} {feed : Feed}
    (hall : ∀ ts ∈ registry, ∀ raw, alookup ts.name feed = some raw →
      keysNodup ((parseTable ts raw).map (rowKey ts.pk)) = true)
    (hreq : ∀ ts ∈ registry, ts.required = true →
      ts.name ∈ exclude ∨ ∃ raw, alookup ts.name feed = some raw) :
    ∃ parsed, importTables registry exclude feed = .ok parsed := by
  induction registry with
  | nil => exact ⟨[], rfl⟩
  | cons t rest ih =>
    obtain ⟨acc, hacc⟩ := ih (fun ts h => hall ts (List.mem_cons_of_mem _ h))
      (fun ts h => hreq ts (List.mem_cons_of_mem _ h))
    rw [importTables_cons]
    by_cases hexc : t.name ∈ exclude
    · rw [if_pos hexc, hacc]
      exact ⟨_, rfl⟩
    · rw [if_neg hexc]
      cases hfeed : alookup t.name feed with
      | none =>
        cases hreqv : t.required with
        | true =>
          rcases hreq t (List.mem_cons_self _ _) hreqv with hx | ⟨raw, hraw⟩
          · exact absurd hx hexc
          · rw [hfeed] at hraw
            simp at hraw
        | false =>
          refine ⟨(t.name, []) :: acc, ?_⟩
          simp [hacc, Except.map]
      | some raw =>
        refine ⟨(t.name, parseTable t raw) :: acc, ?_⟩
        have hkeys := hall t (List.mem_cons_self _ _) raw hfeed
        simp [hkeys, hacc, Except.map]

theorem parseTable_wellTyped {ts : TableSchema} {raw : List RawRow} :
    ∀ r ∈ parseTable ts raw, wellTypedRow ts.cols r = true := by
  intro r hr
  obtain ⟨rr, _, hc⟩ := List.mem_filterMap.mp hr
  exact coerceRow_wellTyped hc

theorem tableImportResult_wellTyped {ts : TableSchema} {exclude : List String} {feed : Feed} :
    ∀ r ∈ tableImportResult ts exclude feed, wellTypedRow ts.cols r = true := by
  intro r hr
  rw [tableImportResult] at hr
  split at hr
  · simp at hr
  · split at hr
    · simp at hr
    · exact parseTable_wellTyped r hr

/-- Re-importing an exported table restores its rows exactly. -/
theorem parseTable_export {ts : TableSchema} {rows : List Row}
    (hnd : (schemaFields ts.cols).Nodup)
    (hwt : ∀ r ∈ rows, wellTypedRow ts.cols r = true) :
    parseTable ts (rows.map (exportRow ts.cols)) = rows := by
  rw [parseTable, List.filterMap_map]
  induction rows with
  | nil => rfl
  | cons r rest ih =>
    rw [List.filterMap_cons]
    have hr : (coerceRow ts.cols ∘ exportRow ts.cols) r = some r :=
      coerceRow_exportRow hnd (hwt r (List.mem_cons_self _ _))
    rw [hr, ih (fun r h => hwt r (List.mem_cons_of_mem _ h))]

/-! ## Query Engine

Modelled from the spec (Query Engine, Relational Store `query`): a
structured filter/projection/order specification, filtering by equality,
IN-list and IS NULL combined by implicit AND, projection to requested
fields and a stable multi-key sort.  The where/select shapes mirror the
source's `SqlWhere`/`SqlSelect`/`SqlOrderBy` declarations. -/

/-- A where-clause condition on one field: a scalar literal means
equality, a list of literals means IN, null means IS NULL. -/
inductive Cond where
  | lit (v : Value) : Cond
  | inList (vs : List Value) : Cond
  | isNull : Cond
  deriving DecidableEq, Repr

/-- Where-clause: field name to condition; a field absent from the list
imposes no constraint. -/
abbrev SqlWhere := List (String × Cond)

/-- Field list of a projection. -/
abbrev SqlSelect := List String

/-- Sort direction. -/
inductive Dir where
  | asc : Dir
  | desc : Dir
  deriving DecidableEq, Repr

/-- Sort order: ordered list of field/direction pairs. -/
abbrev SqlOrderBy := List (String × Dir)

/-- Modelled from the spec (Error Handling taxonomy): query errors. -/
inductive QueryError where
  | unknownField (f : String) : QueryError
  deriving DecidableEq, Repr

/-- Value of a field in a row (null when the field is not present). -/
def rowGet (row : Row) (f : String) : Value := (alookup f row).getD .vNull

/-- Truth of one condition at one value. -/
def condHolds (c : Cond) (v : Value) : Bool :=
  match c with
  | .lit w => decide (v = w)
  | .inList ws => ws.any (fun x => decide (v = x))
  | .isNull => decide (v = .vNull)

/-- Conjunction of all where-clause conditions (implicit AND). -/
def matchesWhere (w : SqlWhere) (row : Row) : Bool :=
  w.all (fun fc => condHolds fc.2 (rowGet row fc.1))

/-- Projection of a row to the requested fields only. -/
def projectRow (fields : SqlSelect) (row : Row) : Row :=
  fields.map (fun f => (f, rowGet row f))

/-- Total comparison on cell values: nulls first, then strings, then
numbers. -/
def valueLe : Value → Value → Bool
  | .vNull, _ => true
  | _, .vNull => false
  | .vStr a, .vStr b => decide (a ≤ b)
  | .vStr _, .vNum _ => true
  | .vNum _, .vStr _ => false
  | .vNum a, .vNum b => decide (a ≤ b)

/-- Multi-key lexicographic comparison driven by the sort order. -/
def keyLe (orderBy : SqlOrderBy) (r1 r2 : Row) : Bool :=
  match orderBy with
  | [] => true
  | (f, d) :: rest =>
    if rowGet r1 f = rowGet r2 f then keyLe rest r1 r2
    else
      match d with
      | .asc => valueLe (rowGet r1 f) (rowGet r2 f)
      | .desc => valueLe (rowGet r2 f) (rowGet r1 f)

/-- Insert into a sorted list after every element not greater, preserving
the relative order of tied elements (stability). -/
def insertSorted {α : Type} (le : α → α → Bool) (a : α) : List α → List α
  | [] => [a]
  | b :: t => if le a b then a :: b :: t else b :: insertSorted le a t

/-- Modelled from the spec (Relational Store `query`): stable multi-key
sort, realized as insertion sort. -/
def sortRows {α : Type} (le : α → α → Bool) : List α → List α
  | [] => []
  | a :: l => insertSorted le a (sortRows le l)

/-- First field of the where-clause or projection that is not a schema
column, if any. -/
def unknownFieldOf (ts : TableSchema) (w : SqlWhere) (fields : SqlSelect) : Option String :=
  (w.map (·.1) ++ fields).find? (fun f => !(schemaFields ts.cols).contains f)

/-- Modelled from the spec (Relational Store `query`, Query Engine):
filter, stable-sort and project one table's rows; a where or select field
outside the schema fails the whole query with no partial results. -/
def queryTable (ts : TableSchema) (rows : List Row) (w : Option SqlWhere)
    (fields : Option SqlSelect) (orderBy : SqlOrderBy) :
    Except QueryError (List Row) :=
  match unknownFieldOf ts (w.getD []) (fields.getD (schemaFields ts.cols)) with
  | some f => .error (.unknownField f)
  | none =>
    .ok ((sortRows (keyLe orderBy) ((rows.filter (matchesWhere (w.getD []))))).map
      (projectRow (fields.getD (schemaFields ts.cols))))

/-- Modelled from the spec (Query Engine): one query operation per entity
type, dispatching on the registry's schema for the table; a table the
store never populated yields an empty sequence. -/
def getTable (registry : List TableSchema) (st : Store) (tbl : String)
    (w : Option SqlWhere) (fields : Option SqlSelect) (orderBy : SqlOrderBy) :
    Except QueryError (List Row) :=
  match registry.find? (fun ts => decide (ts.name = tbl)) with
  | none => .ok []
  | some ts => queryTable ts ((storeRows st tbl).map (·.2)) w fields orderBy

/-- Query operation for the stops table. -/
def getStops (registry : List TableSchema) (st : Store) (w : Option SqlWhere)
    (fields : Option SqlSelect) (orderBy : SqlOrderBy) : Except QueryError (List Row) :=
  getTable registry st "stops" w fields orderBy

/-- Query operation for the routes table. -/
def getRoutes (registry : List TableSchema) (st : Store) (w : Option SqlWhere)
    (fields : Option SqlSelect) (orderBy : SqlOrderBy) : Except QueryError (List Row) :=
  getTable registry st "routes" w fields orderBy

/-- Query operation for the trips table. -/
def getTrips (registry : List TableSchema) (st : Store) (w : Option SqlWhere)
    (fields : Option SqlSelect) (orderBy : SqlOrderBy) : Except QueryError (List Row) :=
  getTable registry st "trips" w fields orderBy

/-- GeoJSON Point feature: coordinates plus the non-geometry properties. -/
structure Feature where
  pointCoordinates : List Int
  properties : Row
  deriving DecidableEq, Repr

/-- Modelled from the spec (Query Engine geospatial variants): a stop row
becomes a Point feature `[stop_lon, stop_lat]` when both coordinates are
present and numeric; otherwise the row is excluded. -/
def stopFeature (row : Row) : Option Feature :=
  match rowGet row "stop_lon", rowGet row "stop_lat" with
  | .vNum lon, .vNum lat =>
    some ⟨[lon, lat],
      row.filter (fun p => !(decide (p.1 = "stop_lon") || decide (p.1 = "stop_lat")))⟩
  | _, _ => none

/-- Modelled from the spec: `getStopsAsGeoJSON` runs the equivalent row
query and assembles the Feature collection, skipping rows with missing or
invalid coordinates rather than failing the request. -/
def getStopsAsGeoJSON (registry : List TableSchema) (st : Store) (w : Option SqlWhere) :
    Except QueryError (List Feature) :=
  (getStops registry st w none []).map (fun rs => rs.filterMap stopFeature)

/-! ## Sorting lemmas -/

theorem insertSorted_perm {α : Type} (le : α → α → Bool) (a : α) (s : List α) :
    List.Perm (insertSorted le a s) (a :: s) := by
  induction s with
  | nil => exact .refl _
  | cons b t ih =>
    rw [insertSorted]
    split
    · exact .refl _
    · exact (ih.cons b).trans (List.Perm.swap a b t)

theorem sortRows_perm {α : Type} (le : α → α → Bool) (l : List α) :
    List.Perm (sortRows le l) l := by
  induction l with
  | nil => exact .refl _
  | cons a l ih => exact (insertSorted_perm le a (sortRows le l)).trans (ih.cons a)

theorem mem_insertSorted {α : Type} {le : α → α → Bool} {a x : α} {s : List α} :
    x ∈ insertSorted le a s ↔ x = a ∨ x ∈ s := by
  rw [(insertSorted_perm le a s).mem_iff]
  exact List.mem_cons

theorem pairwise_insertSorted {α : Type} {le : α → α → Bool}
    (trans : ∀ a b c, le a b = true → le b c = true → le a c = true)
    (total : ∀ a b, (le a b || le b a) = true)
    (a : α) {s : List α} (hs : s.Pairwise (fun x y => le x y = true)) :
    (insertSorted le a s).Pairwise (fun x y => le x y = true) := by
  induction s with
  | nil => exact List.pairwise_singleton _ _
  | cons b t ih =>
    rw [insertSorted]
    split
    · rename_i hab
      refine List.Pairwise.cons ?_ hs
      intro x hx
      rcases List.mem_cons.mp hx with rfl | hxt
      · exact hab
      · exact trans a b x hab (List.rel_of_pairwise_cons hs hxt)
    · rename_i hab
      have hba : le b a = true := by
        rcases Bool.or_eq_true_iff.mp (total a b) with h | h
        · exact absurd h hab
        · exact h
      refine List.Pairwise.cons ?_ (ih (List.pairwise_cons.mp hs).2)
      intro x hx
      rcases mem_insertSorted.mp hx with rfl | hxt
      · exact hba
      · exact List.rel_of_pairwise_cons hs hxt

theorem sortRows_sorted {α : Type} {le : α → α → Bool}
    (trans : ∀ a b c, le a b = true → le b c = true → le a c = true)
    (total : ∀ a b, (le a b || le b a) = true) (l : List α) :
    (sortRows le l).Pairwise (fun x y => le x y = true) := by
  induction l with
  | nil => exact .nil
  | cons a l ih => exact pairwise_insertSorted trans total a ih

theorem insertSorted_decomp {α : Type} (le : α → α → Bool) (a : α) (s : List α) :
    ∃ s₁ s₂, insertSorted le a s = s₁ ++ a :: s₂ ∧ s = s₁ ++ s₂ ∧
      ∀ b ∈ s₁, le a b = false := by
  induction s with
  | nil => exact ⟨[], [], rfl, rfl, by simp⟩
  | cons b t ih =>
    by_cases hab : le a b = true
    · exact ⟨[], b :: t, by rw [insertSorted, if_pos hab]; rfl, rfl, by simp⟩
    · obtain ⟨t₁, t₂, h1, h2, h3⟩ := ih
      refine ⟨b :: t₁, t₂, ?_, by rw [List.cons_append, ← h2], ?_⟩
      · rw [insertSorted, if_neg hab, h1]
        rfl
      · intro x hx
        rcases List.mem_cons.mp hx with rfl | hxt
        · exact Bool.eq_false_iff.mpr hab
        · exact h3 x hxt

theorem sortRows_cons {α : Type} (le : α → α → Bool) (a : α) (l : List α) :
    ∃ l₁ l₂, sortRows le (a :: l) = l₁ ++ a :: l₂ ∧ sortRows le l = l₁ ++ l₂ ∧
      ∀ b ∈ l₁, le a b = false :=
  insertSorted_decomp le a (sortRows le l)

/-- Stability of the sort: a sorted sublist of the input (in particular a
pair in input order whose first component compares le) survives as a
sublist of the output. -/
theorem sublist_sortRows {α : Type} {le : α → α → Bool} {c l : List α}
    (hc : c.Pairwise (fun x y => le x y = true)) (hs : List.Sublist c l) :
    List.Sublist c (sortRows le l) := by
  revert hc
  induction hs with
  | slnil =>
    intro _
    exact List.nil_sublist _
  | @cons l₁ l₂ a h ih =>
    intro hc
    obtain ⟨s₁, s₂, h1, h2, h3⟩ := sortRows_cons le a l₂
    rw [h1]
    have h' := ih hc
    rw [h2] at h'
    exact h'.middle a
  | @cons₂ l₁ l₂ a h ih =>
    intro hc
    obtain ⟨s₁, s₂, h1, h2, h3⟩ := sortRows_cons le a l₂
    rw [h1]
    have h' := ih (List.pairwise_cons.mp hc).2
    rw [h2] at h'
    have hdisj : ∀ x, x ∈ l₁ → x ∉ s₁ := by
      intro x hx hxs
      have h4 := (List.pairwise_cons.mp hc).1 x hx
      rw [h3 x hxs] at h4
      exact Bool.false_ne_true h4
    have hc2 : List.Sublist l₁ s₂ := List.Sublist.of_sublist_append_right hdisj h'
    exact List.sublist_append_of_sublist_right (hc2.cons₂ a)

theorem sortRows_of_pairwise {α : Type} {le : α → α → Bool} {l : List α}
    (h : l.Pairwise (fun x y => le x y = true)) : sortRows le l = l := by
  induction l with
  | nil => rfl
  | cons a l ih =>
    show insertSorted le a (sortRows le l) = a :: l
    rw [ih (List.pairwise_cons.mp h).2]
    cases l with
    | nil => rfl
    | cons b t =>
      rw [insertSorted, if_pos ((List.pairwise_cons.mp h).1 b (List.mem_cons_self b t))]

theorem pairwise_keyLe_nil (l : List Row) :
    l.Pairwise (fun x y => keyLe [] x y = true) := by
  induction l with
  | nil => exact .nil
  | cons a rest ih => exact .cons (fun b _ => rfl) ih

theorem sortRows_keyLe_nil (l : List Row) : sortRows (keyLe []) l = l :=
  sortRows_of_pairwise (pairwise_keyLe_nil l)

/-! ## Comparison and where-clause lemmas -/

theorem valueLe_total (a b : Value) : (valueLe a b || valueLe b a) = true := by
  cases a <;> cases b <;>
    simp only [valueLe, Bool.or_eq_true, decide_eq_true_eq, Bool.true_or, Bool.or_true]
  · exact le_total _ _
  · exact Int.le_total _ _

theorem valueLe_trans (a b c : Value) (h1 : valueLe a b = true) (h2 : valueLe b c = true) :
    valueLe a c = true := by
  cases a <;> cases b <;> cases c <;>
    simp only [valueLe, decide_eq_true_eq, Bool.false_eq_true] at h1 h2 ⊢ <;>
    try trivial
  · exact le_trans h1 h2
  · omega

theorem valueLe_antisymm (a b : Value) (h1 : valueLe a b = true) (h2 : valueLe b a = true) :
    a = b := by
  cases a <;> cases b <;>
    simp only [valueLe, decide_eq_true_eq, Bool.false_eq_true] at h1 h2 <;> try rfl
  · exact congrArg Value.vStr (le_antisymm h1 h2)
  · exact congrArg Value.vNum (by omega)

theorem keyLe_total (ob : SqlOrderBy) (r1 r2 : Row) :
    (keyLe ob r1 r2 || keyLe ob r2 r1) = true := by
  induction ob with
  | nil => rfl
  | cons fd rest ih =>
    obtain ⟨f, d⟩ := fd
    by_cases h : rowGet r1 f = rowGet r2 f
    · cases d <;>
        simp only [keyLe, if_pos h, if_pos h.symm] <;> exact ih
    · have h' : ¬ rowGet r2 f = rowGet r1 f := fun hc => h hc.symm
      cases d <;> simp only [keyLe, if_neg h, if_neg h']
      · exact valueLe_total _ _
      · exact valueLe_total _ _

theorem keyLe_trans (ob : SqlOrderBy) (a b c : Row) (h1 : keyLe ob a b = true)
    (h2 : keyLe ob b c = true) : keyLe ob a c = true := by
  induction ob with
  | nil => rfl
  | cons fd rest ih =>
    obtain ⟨f, d⟩ := fd
    by_cases e12 : rowGet a f = rowGet b f
    · by_cases e23 : rowGet b f = rowGet c f
      · simp only [keyLe, if_pos e12] at h1
        simp only [keyLe, if_pos e23] at h2
        simp only [keyLe, if_pos (e12.trans e23)]
        exact ih h1 h2
      · have e13 : ¬ rowGet a f = rowGet c f := by rw [e12]; exact e23
        simp only [keyLe, if_neg e23] at h2
        simp only [keyLe, if_neg e13]
        rw [e12]
        exact h2
    · by_cases e23 : rowGet b f = rowGet c f
      · have e13 : ¬ rowGet a f = rowGet c f := by rw [← e23]; exact e12
        simp only [keyLe, if_neg e12] at h1
        simp only [keyLe, if_neg e13]
        rw [← e23]
        exact h1
      · simp only [keyLe, if_neg e12] at h1
        simp only [keyLe, if_neg e23] at h2
        have e13 : ¬ rowGet a f = rowGet c f := by
          intro hc
          cases d
          · exact e23 (valueLe_antisymm _ _ h2 (hc ▸ h1))
          · exact e23 (valueLe_antisymm _ _ (hc ▸ h1) h2)
        simp only [keyLe, if_neg e13]
        cases d
        · exact valueLe_trans _ _ _ h1 h2
        · exact valueLe_trans _ _ _ h2 h1

/-- Logical reading of the where-clause: a literal filters by equality, a
list by membership, null by IS NULL, all conditions conjoined, and fields
not listed are unconstrained. -/
theorem matchesWhere_iff (w : SqlWhere) (r : Row) :
    matchesWhere w r = true ↔
      (∀ f v, (f, Cond.lit v) ∈ w → rowGet r f = v)
      ∧ (∀ f vs, (f, Cond.inList vs) ∈ w → rowGet r f ∈ vs)
      ∧ (∀ f, (f, Cond.isNull) ∈ w → rowGet r f = .vNull) := by
  rw [matchesWhere, List.all_eq_true]
  constructor
  · intro h
    refine ⟨?_, ?_, ?_⟩
    · intro f v hmem
      have := h (f, Cond.lit v) hmem
      simpa [condHolds] using this
    · intro f vs hmem
      have := h (f, Cond.inList vs) hmem
      simp only [condHolds, List.any_eq_true, decide_eq_true_eq] at this
      obtain ⟨x, hx, hv⟩ := this
      rw [hv]
      exact hx
    · intro f hmem
      have := h (f, Cond.isNull) hmem
      simpa [condHolds] using this
  · rintro ⟨hlit, hin, hnull⟩ ⟨f, c⟩ hmem
    cases c with
    | lit v => simpa [condHolds] using hlit f v hmem
    | inList vs =>
      simp only [condHolds, List.any_eq_true, decide_eq_true_eq]
      exact ⟨rowGet r f, hin f vs hmem, rfl⟩
    | isNull => simpa [condHolds] using hnull f hmem

/-! ## Declared query-operation surface

Embedded from `src/unnamed/part_000` (the `gtfs` module declarations): the
name of every query operation, its parameter list with optionality as
declared, and whether it returns a GeoJSON object. -/

/-- Optionality of a declared parameter (`?` marker in the source). -/
inductive ParamKind where
  | optionalArg : ParamKind
  | requiredArg : ParamKind
  deriving DecidableEq, Repr

/-- One declared query operation. -/
structure OpDecl where
  name : String
  params : List (String × ParamKind)
  geoJSON : Bool
  deriving DecidableEq, Repr

/-- The common `(query?, fields?, sortBy?)` parameter list. -/
def queryFnParams : List (String × ParamKind) :=
  [("query", .optionalArg), ("fields", .optionalArg), ("sortBy", .optionalArg)]

/-- Every `get…` operation declared in the `gtfs` module, in source order. -/
def gtfsQueryOps : List OpDecl := [
  ⟨"getAgencies",
    [("query", .requiredArg), ("fields", .requiredArg), ("sortBy", .requiredArg)], false⟩,
  ⟨"getAttributions", queryFnParams, false⟩,
  ⟨"getRoutes", queryFnParams, false⟩,
  ⟨"getStops", queryFnParams, false⟩,
  ⟨"getStopsAsGeoJSON", [("query", .optionalArg)], true⟩,
  ⟨"getStoptimes", queryFnParams, false⟩,
  ⟨"getTrips", queryFnParams, false⟩,
  ⟨"getShapes", queryFnParams, false⟩,
  ⟨"getShapesAsGeoJSON", [("query", .optionalArg)], true⟩,
  ⟨"getCalendars", queryFnParams, false⟩,
  ⟨"getCalendarDates", queryFnParams, false⟩,
  ⟨"getFareAttributes", queryFnParams, false⟩,
  ⟨"getFareRules", queryFnParams, false⟩,
  ⟨"getFeedInfo", queryFnParams, false⟩,
  ⟨"getFrequencies", queryFnParams, false⟩,
  ⟨"getLevels", queryFnParams, false⟩,
  ⟨"getPathways", queryFnParams, false⟩,
  ⟨"getTransfers", queryFnParams, false⟩,
  ⟨"getTranslations", queryFnParams, false⟩,
  ⟨"getDirections", queryFnParams, false⟩,
  ⟨"getStopAttributes", queryFnParams, false⟩,
  ⟨"getTimetables", queryFnParams, false⟩,
  ⟨"getTimetableStopOrders", queryFnParams, false⟩,
  ⟨"getTimetablePages", queryFnParams, false⟩,
  ⟨"getTimetableNotes", queryFnParams, false⟩,
  ⟨"getTimetableNotesReferences", queryFnParams, false⟩,
  ⟨"getBoardAlights", queryFnParams, false⟩,
  ⟨"getRideFeedInfos", queryFnParams, false⟩,
  ⟨"getRiderTrips", queryFnParams, false⟩,
  ⟨"getRiderships", queryFnParams, false⟩,
  ⟨"getTripCapacities", queryFnParams, false⟩]

/-- Whether an operation is declared with the three optional arguments. -/
def hasThreeOptionalArgs (d : OpDecl) : Bool :=
  decide (d.params = queryFnParams)

/-! ## HTTP route handlers

Embedded from `src/server/src/index.ts`: four GET endpoints, each wrapping
one gtfs query in try/catch and answering `res.json(result)` on success or
status 500 with `{ error: "Internal Server Error" }` on a thrown error. -/

/-- JSON response body of a route handler. -/
inductive JsonBody where
  | rows (rs : List Row) : JsonBody
  | obj (fields : List (String × String)) : JsonBody
  deriving DecidableEq, Repr

/-- HTTP response: status code and JSON body. -/
structure HttpResponse where
  status : Nat
  body : JsonBody
  deriving DecidableEq, Repr

/-- Outcome of one call into the gtfs library from a route handler: the
returned rows, or a thrown exception carrying its message. -/
inductive GtfsOutcome where
  | ok (rows : List Row) : GtfsOutcome
  | thrown (e : String) : GtfsOutcome
  deriving DecidableEq, Repr

/-- The four GET endpoints of the server. -/
inductive Endpoint where
  | stops : Endpoint
  | routes : Endpoint
  | trips : Endpoint
  | stopByName (stopName : String) : Endpoint
  deriving DecidableEq, Repr

/-- Shared handler body: `res.json` of the call's value, or the catch
branch answering 500 with the fixed error object. -/
def handleOutcome (o : GtfsOutcome) : HttpResponse :=
  match o with
  | .ok rows => ⟨200, .rows rows⟩
  | .thrown _ => ⟨500, .obj [("error", "Internal Server Error")]⟩

/-- A route handler as a function of the gtfs call outcomes. -/
def endpointHandler (call : Endpoint → GtfsOutcome) (ep : Endpoint) : HttpResponse :=
  handleOutcome (call ep)

/-- The query each endpoint issues, from `index.ts`: the three collection
endpoints call with no arguments; `/stops/:stopName` calls
`getStops({ stop_id: stopName })`. -/
def endpointQuery (registry : List TableSchema) (st : Store) :
    Endpoint → Except QueryError (List Row)
  | .stops => getStops registry st none none []
  | .routes => getRoutes registry st none none []
  | .trips => getTrips registry st none none []
  | .stopByName stopName =>
      getStops registry st (some [("stop_id", .lit (.vStr stopName))]) none []

/-- Handler for `/stops/:stopName` over the modelled store. -/
def stopByNameHandler (registry : List TableSchema) (st : Store) (stopName : String) :
    HttpResponse :=
  match endpointQuery registry st (.stopByName stopName) with
  | .ok rows => ⟨200, .rows rows⟩
  | .error _ => ⟨500, .obj [("error", "Internal Server Error")]⟩

/-! ## Query helpers -/

theorem rowGet_cons_ne (e : String × Value) (r : Row) (f : String) (h : e.1 ≠ f) :
    rowGet (e :: r) f = rowGet r f := by
  rw [rowGet, rowGet]
  show ((if e.1 = f then some e.2 else alookup f r)).getD _ = _
  rw [if_neg h]

/-- Projecting a well-shaped row to all schema columns is the identity. -/
theorem projectRow_self {cols : List (String × CType)} {r : Row}
    (hnd : (schemaFields cols).Nodup) (hwt : wellTypedRow cols r = true) :
    projectRow (schemaFields cols) r = r := by
  induction cols generalizing r with
  | nil =>
    cases r with
    | nil => rfl
    | cons e r' => exact absurd hwt (by simp [wellTypedRow])
  | cons c rest ih =>
    cases r with
    | nil => exact absurd hwt (by simp [wellTypedRow])
    | cons e r' =>
      simp only [wellTypedRow, Bool.and_eq_true, decide_eq_true_eq] at hwt
      obtain ⟨⟨hname, _⟩, htail⟩ := hwt
      simp only [schemaFields, List.map_cons, List.nodup_cons] at hnd
      have hhead : rowGet (e :: r') c.1 = e.2 := by
        rw [rowGet]
        show ((if e.1 = c.1 then some e.2 else alookup c.1 r')).getD _ = _
        rw [if_pos hname]
        rfl
      show (c.1 :: schemaFields rest).map (fun f => (f, rowGet (e :: r') f)) = e :: r'
      rw [List.map_cons, hhead]
      have htailmap : (schemaFields rest).map (fun f => (f, rowGet (e :: r') f))
          = (schemaFields rest).map (fun f => (f, rowGet r' f)) := by
        apply List.map_congr_left
        intro f hf
        have hne : e.1 ≠ f := by
          rw [hname]
          intro hc
          exact hnd.1 (by rw [hc]; simpa [schemaFields] using hf)
        rw [rowGet_cons_ne e r' f hne]
      rw [htailmap]
      have hihr := ih hnd.2 htail
      rw [projectRow] at hihr
      rw [hihr, ← hname]

/-- Shape of a successful query: filter, stable sort, then project. -/
theorem queryTable_ok {ts : TableSchema} {rows : List Row} {w : SqlWhere}
    {fs : SqlSelect} {ob : SqlOrderBy}
    (hw : ∀ f ∈ w.map (·.1), f ∈ schemaFields ts.cols)
    (hf : ∀ f ∈ fs, f ∈ schemaFields ts.cols) :
    queryTable ts rows (some w) (some fs) ob =
      .ok ((sortRows (keyLe ob) (rows.filter (matchesWhere w))).map (projectRow fs)) := by
  have hnone : unknownFieldOf ts w fs = none := by
    rw [unknownFieldOf, List.find?_eq_none]
    intro f hfm
    have hmem : f ∈ schemaFields ts.cols := by
      rcases List.mem_append.mp hfm with h1 | h2
      · exact hw f h1
      · exact hf f h2
    simp only [List.contains, List.elem_iff, Bool.not_eq_true']
    simp only [Bool.not_eq_false]
    exact List.elem_iff.mpr hmem
  rw [queryTable]
  simp only [Option.getD_some, hnone]

/-- All-columns projection with no constraint and no sort order is the
identity on well-shaped rows. -/
theorem queryTable_defaults {ts : TableSchema} {rows : List Row}
    (hnd : (schemaFields ts.cols).Nodup)
    (hwt : ∀ r ∈ rows, wellTypedRow ts.cols r = true) :
    queryTable ts rows none none [] = .ok rows := by
  have hnone : unknownFieldOf ts [] (schemaFields ts.cols) = none := by
    rw [unknownFieldOf, List.find?_eq_none]
    intro f hfm
    have hmem : f ∈ schemaFields ts.cols := by
      rcases List.mem_append.mp hfm with h1 | h2
      · simp at h1
      · exact h2
    simp only [List.contains, List.elem_iff, Bool.not_eq_true']
    simp only [Bool.not_eq_false]
    exact List.elem_iff.mpr hmem
  rw [queryTable]
  simp only [Option.getD_none, hnone]
  have hfilter : rows.filter (matchesWhere []) = rows := by
    apply List.filter_eq_self.mpr
    intro r _
    rfl
  rw [hfilter, sortRows_keyLe_nil]
  have hproj : rows.map (projectRow (schemaFields ts.cols)) = rows := by
    have hid : rows.map (projectRow (schemaFields ts.cols)) = rows.map id := by
      apply List.map_congr_left
      intro r hr
      exact projectRow_self hnd (hwt r hr)
    rw [hid, List.map_id]
  rw [hproj]

theorem matchesWhere_single (f : String) (c : Cond) (r : Row) :
    matchesWhere [(f, c)] r = condHolds c (rowGet r f) := by
  simp [matchesWhere]

/-- Shape of a successful query when the field list is omitted (defaults
to all schema columns). -/
theorem queryTable_ok_defaultFields {ts : TableSchema} {rows : List Row} {w : SqlWhere}
    {ob : SqlOrderBy} (hw : ∀ f ∈ w.map (·.1), f ∈ schemaFields ts.cols) :
    queryTable ts rows (some w) none ob =
      .ok ((sortRows (keyLe ob) (rows.filter (matchesWhere w))).map
        (projectRow (schemaFields ts.cols))) := by
  have hnone : unknownFieldOf ts w (schemaFields ts.cols) = none := by
    rw [unknownFieldOf, List.find?_eq_none]
    intro f hfm
    have hmem : f ∈ schemaFields ts.cols := by
      rcases List.mem_append.mp hfm with h1 | h2
      · exact hw f h1
      · exact h2
    simp only [List.contains, List.elem_iff, Bool.not_eq_true']
    simp only [Bool.not_eq_false]
    exact List.elem_iff.mpr hmem
  rw [queryTable]
  simp only [Option.getD_some, Option.getD_none, hnone]

/-- The exported feed contains a table exactly when the agency has rows in
it, carrying the serialized rows. -/
theorem exportAgency_lookup {registry : List TableSchema} {s : Store} {key : String}
    {ts : TableSchema} (hnd : (registry.map (·.name)).Nodup) (hts : ts ∈ registry) :
    alookup ts.name (exportAgency registry s key) =
      if (agencyRows s key ts.name).isEmpty then none
      else some ((agencyRows s key ts.name).map (exportRow ts.cols)) := by
  induction registry with
  | nil => simp at hts
  | cons t rest ih =>
    simp only [List.map_cons, List.nodup_cons] at hnd
    have hsub : ∀ x, x ∈ ((rest.filter
        (fun u => !(agencyRows s key u.name).isEmpty)).map
        (fun u => (u.name, (agencyRows s key u.name).map (exportRow u.cols)))).map (·.1) →
        x ∈ rest.map (·.name) := by
      intro x hx
      simp only [List.map_map, List.mem_map, Function.comp] at hx
      obtain ⟨u, hu, hux⟩ := hx
      exact List.mem_map.mpr ⟨u, (List.mem_filter.mp hu).1, hux⟩
    rcases List.mem_cons.mp hts with heq | hmem
    · subst heq
      by_cases hp : (agencyRows s key ts.name).isEmpty = true
      · rw [if_pos hp]
        have hcond : ¬ ((!(agencyRows s key ts.name).isEmpty) = true) := by
          rw [hp]
          exact Bool.false_ne_true
        rw [exportAgency, List.filter_cons, if_neg hcond]
        apply alookup_eq_none
        intro hmm
        exact hnd.1 (hsub ts.name hmm)
      · rw [if_neg hp]
        have hcond : (!(agencyRows s key ts.name).isEmpty) = true := by
          cases hval : (agencyRows s key ts.name).isEmpty
          · rfl
          · exact absurd hval hp
        rw [exportAgency, List.filter_cons, if_pos hcond, List.map_cons]
        show (if ts.name = ts.name then
          some ((agencyRows s key ts.name).map (exportRow ts.cols)) else _) = _
        rw [if_pos rfl]
    · have hne : t.name ≠ ts.name := by
        intro hc
        exact hnd.1 (hc ▸ List.mem_map.mpr ⟨ts, hmem, rfl⟩)
      have hrec := ih hnd.2 hmem
      rw [exportAgency] at hrec ⊢
      rw [List.filter_cons]
      by_cases hp : (!(agencyRows s key t.name).isEmpty) = true
      · rw [if_pos hp, List.map_cons]
        show (if t.name = ts.name then _ else alookup ts.name _) = _
        rw [if_neg hne]
        exact hrec
      · rw [if_neg hp]
        exact hrec

/-! ## Claim theorems -/

/-- C8: the Feed Loader's time-of-day coercion stores a parsed time string
as elapsed seconds since midnight, not reduced modulo 24 hours, so a
rollover value at or past 24:00:00 remains strictly greater than every
same-day value. -/
theorem time_rollover_preserved :
    ∀ h m s : Nat, m < 60 → s < 60 →
      (coerceCell .tTime (some (String.mk (timeChars h m s)))
        = some (.vNum (Int.ofNat (h * 3600 + m * 60 + s))))
      ∧ (24 ≤ h → ∀ h' m' s' : Nat, h' < 24 → m' < 60 → s' < 60 →
          h' * 3600 + m' * 60 + s' < h * 3600 + m * 60 + s) := by
  intro h m s hm hs
  constructor
  · show (parseTime (String.mk (timeChars h m s)).data).map
      (fun k => Value.vNum (Int.ofNat k)) = _
    have hdata : (String.mk (timeChars h m s)).data = timeChars h m s := rfl
    rw [hdata, parseTime_timeChars h m s hm hs]
    rfl
  · intro h24 h' m' s' hh' hm' hs'
    omega

/-- Witness for C8 at the rollover time 25:30:00. -/
theorem time_rollover_preserved_witness :
    (coerceCell .tTime (some (String.mk (timeChars 25 30 0)))
      = some (.vNum (Int.ofNat (25 * 3600 + 30 * 60 + 0))))
    ∧ (24 ≤ 25 → ∀ h' m' s' : Nat, h' < 24 → m' < 60 → s' < 60 →
        h' * 3600 + m' * 60 + s' < 25 * 3600 + 30 * 60 + 0) :=
  time_rollover_preserved 25 30 0 (by decide) (by decide)

/-- C10: whenever the gtfs call issued by any of the four endpoints
throws, the handler answers status 500 with exactly
`{ error: "Internal Server Error" }`; the body never depends on the thrown
error. -/
theorem handlers_internal_error_500 :
    ∀ (call : Endpoint → GtfsOutcome) (ep : Endpoint) (e : String),
      call ep = .thrown e →
      endpointHandler call ep = ⟨500, .obj [("error", "Internal Server Error")]⟩ := by
  intro call ep e h
  rw [endpointHandler, h]
  rfl

/-- Witness for C10 on the `/stops` endpoint with a thrown error. -/
theorem handlers_internal_error_500_witness :
    ((fun _ : Endpoint => GtfsOutcome.thrown "db not open") Endpoint.stops
        = GtfsOutcome.thrown "db not open")
    ∧ endpointHandler (fun _ => .thrown "db not open") .stops
        = ⟨500, .obj [("error", "Internal Server Error")]⟩ :=
  ⟨rfl, handlers_internal_error_500 (fun _ => .thrown "db not open") .stops "db not open" rfl⟩

/-- C6 counterexample: not every declared query operation has the three
optional arguments — `getAgencies` is declared with all three parameters
required. -/
theorem query_ops_not_all_three_optional :
    ¬ ∀ d ∈ gtfsQueryOps, hasThreeOptionalArgs d = true := by
  intro h
  have hd := h ⟨"getAgencies",
    [("query", .requiredArg), ("fields", .requiredArg), ("sortBy", .requiredArg)], false⟩
    (List.mem_cons_self _ _)
  exact absurd hd (by decide)

/-- C6 as amended: every declared query operation takes
`(query?, fields?, sortBy?)` all optional, except `getAgencies`, whose
three parameters are required, and the two GeoJSON operations, which take
only the optional `query`; and in the modelled engine an omitted where
means no constraint, an omitted field list means all columns, and an
omitted sort order means insertion order. -/
theorem query_ops_signatures_amended :
    (∀ d ∈ gtfsQueryOps,
      d.params = (if d.name = "getAgencies" then
          [("query", ParamKind.requiredArg), ("fields", ParamKind.requiredArg),
            ("sortBy", ParamKind.requiredArg)]
        else if d.geoJSON = true then [("query", ParamKind.optionalArg)]
        else queryFnParams))
    ∧ (∀ (ts : TableSchema) (rows : List Row), (schemaFields ts.cols).Nodup →
        (∀ r ∈ rows, wellTypedRow ts.cols r = true) →
        queryTable ts rows none none [] = .ok rows) := by
  constructor
  · decide
  · intro ts rows hnd hwt
    exact queryTable_defaults hnd hwt

/-- Witness for the amended C6: `getStops` has the three optional
arguments, and a one-row stops table queried with everything omitted
returns its row unchanged. -/
theorem query_ops_signatures_amended_witness :
    ((OpDecl.mk "getStops" queryFnParams false) ∈ gtfsQueryOps)
    ∧ (OpDecl.mk "getStops" queryFnParams false).params =
        (if (OpDecl.mk "getStops" queryFnParams false).name = "getAgencies" then
          [("query", ParamKind.requiredArg), ("fields", ParamKind.requiredArg),
            ("sortBy", ParamKind.requiredArg)]
        else if (OpDecl.mk "getStops" queryFnParams false).geoJSON = true then
          [("query", ParamKind.optionalArg)]
        else queryFnParams)
    ∧ queryTable ⟨"stops", [("stop_id", .tStr)], ["stop_id"], true⟩
        [[("stop_id", .vStr "A")]] none none []
        = .ok [[("stop_id", .vStr "A")]] := by
  refine ⟨by decide, ?_, ?_⟩
  · exact query_ops_signatures_amended.1 (OpDecl.mk "getStops" queryFnParams false) (by decide)
  · exact query_ops_signatures_amended.2 ⟨"stops", [("stop_id", .tStr)], ["stop_id"], true⟩
      [[("stop_id", .vStr "A")]] (by decide) (by decide)

/-- C7: querying a table into which no import has loaded rows yields an
empty sequence without error, while a where-clause or field list naming a
field outside the table's schema fails with `UnknownFieldError` and
returns no rows. -/
theorem unpopulated_empty_unknown_field_errors :
    (∀ (registry : List TableSchema) (st : Store) (tbl : String),
      storeRows st tbl = [] →
      getTable registry st tbl none none [] = .ok [])
    ∧ (∀ (ts : TableSchema) (rows : List Row) (w : SqlWhere) (fs : SqlSelect)
        (ob : SqlOrderBy) (f : String),
        f ∈ w.map (·.1) ++ fs → f ∉ schemaFields ts.cols →
        ∃ fbad, fbad ∉ schemaFields ts.cols ∧
          queryTable ts rows (some w) (some fs) ob = .error (.unknownField fbad)) := by
  constructor
  · intro registry st tbl hempty
    rw [getTable]
    cases hfind : registry.find? (fun ts => decide (ts.name = tbl)) with
    | none => rfl
    | some ts =>
      simp only [hfind]
      rw [hempty]
      have hnone : unknownFieldOf ts [] (schemaFields ts.cols) = none := by
        rw [unknownFieldOf, List.find?_eq_none]
        intro f hfm
        have hmem : f ∈ schemaFields ts.cols := by
          rcases List.mem_append.mp hfm with h1 | h2
          · simp at h1
          · exact h2
        simp only [List.contains, List.elem_iff, Bool.not_eq_true']
        simp only [Bool.not_eq_false]
        exact List.elem_iff.mpr hmem
      rw [queryTable]
      simp only [Option.getD_none, hnone, List.map_nil]
      rfl
  · intro ts rows w fs ob f hf hnotin
    have hp : (!(schemaFields ts.cols).contains f) = true := by
      have helem : (schemaFields ts.cols).contains f = false := by
        cases hval : (schemaFields ts.cols).contains f
        · rfl
        · exact absurd (List.elem_iff.mp hval) hnotin
      rw [helem]
      rfl
    have hsome : ((w.map (·.1) ++ fs).find?
        (fun g => !(schemaFields ts.cols).contains g)).isSome :=
      List.find?_isSome.mpr ⟨f, hf, hp⟩
    obtain ⟨fbad, hfbad⟩ := Option.isSome_iff_exists.mp hsome
    have hpbad := List.find?_some hfbad
    refine ⟨fbad, ?_, ?_⟩
    · intro hmem
      rw [show (schemaFields ts.cols).contains fbad = true from List.elem_iff.mpr hmem]
        at hpbad
      exact Bool.false_ne_true hpbad
    · rw [queryTable]
      simp only [Option.getD_some]
      have hufo : unknownFieldOf ts w fs = some fbad := hfbad
      simp only [hufo]

/-- Witness for C7: an empty store answers an empty row list, and a query
naming a field outside the schema fails with `UnknownFieldError`. -/
theorem unpopulated_empty_unknown_field_errors_witness :
    (storeRows emptyStore "routes" = [] ∧
      getTable [⟨"routes", [("route_id", .tStr)], ["route_id"], true⟩]
        emptyStore "routes" none none [] = .ok [])
    ∧ (("bogus" : String) ∈ ([("bogus", Cond.isNull)] : SqlWhere).map (·.1)
          ++ (["route_id"] : SqlSelect)
        ∧ "bogus" ∉ schemaFields [("route_id", CType.tStr)]
        ∧ ∃ fbad, fbad ∉ schemaFields [("route_id", CType.tStr)] ∧
          queryTable ⟨"routes", [("route_id", .tStr)], ["route_id"], true⟩
            [] (some [("bogus", Cond.isNull)]) (some ["route_id"]) []
            = .error (.unknownField fbad)) := by
  refine ⟨⟨rfl, ?_⟩, ⟨by decide, by decide, ?_⟩⟩
  · exact unpopulated_empty_unknown_field_errors.1
      [⟨"routes", [("route_id", .tStr)], ["route_id"], true⟩] emptyStore "routes" rfl
  · exact unpopulated_empty_unknown_field_errors.2
      ⟨"routes", [("route_id", .tStr)], ["route_id"], true⟩ []
      [("bogus", Cond.isNull)] ["route_id"] [] "bogus" (by decide) (by decide)

/-- C4: when the stop row query succeeds, `getStopsAsGeoJSON` succeeds and
answers one Point feature per returned row with valid coordinates — rows
with missing or invalid coordinates are dropped, not failed — so the
feature count never exceeds the row count of the same query. -/
theorem geojson_one_feature_per_valid_row :
    ∀ (registry : List TableSchema) (st : Store) (w : Option SqlWhere) (rs : List Row),
      getStops registry st w none [] = .ok rs →
      getStopsAsGeoJSON registry st w = .ok (rs.filterMap stopFeature)
      ∧ (rs.filterMap stopFeature).length ≤ rs.length
      ∧ (∀ ft, ft ∈ rs.filterMap stopFeature ↔ ∃ r ∈ rs, stopFeature r = some ft)
      ∧ (∀ r ∈ rs, (stopFeature r).isSome = true ↔
          (∃ lon, rowGet r "stop_lon" = .vNum lon)
          ∧ (∃ lat, rowGet r "stop_lat" = .vNum lat)) := by
  intro registry st w rs h
  refine ⟨?_, List.length_filterMap_le _ _, fun ft => List.mem_filterMap, ?_⟩
  · rw [getStopsAsGeoJSON, h]
    rfl
  · intro r _
    constructor
    · intro hsome
      cases hlon : rowGet r "stop_lon" with
      | vNum lon =>
        cases hlat : rowGet r "stop_lat" with
        | vNum lat => exact ⟨⟨lon, rfl⟩, ⟨lat, rfl⟩⟩
        | vNull =>
          rw [stopFeature] at hsome
          simp only [hlon, hlat] at hsome
          simp at hsome
        | vStr s =>
          rw [stopFeature] at hsome
          simp only [hlon, hlat] at hsome
          simp at hsome
      | vNull =>
        rw [stopFeature] at hsome
        simp only [hlon] at hsome
        simp at hsome
      | vStr s =>
        rw [stopFeature] at hsome
        simp only [hlon] at hsome
        simp at hsome
    · rintro ⟨⟨lon, hlon⟩, ⟨lat, hlat⟩⟩
      rw [stopFeature]
      simp only [hlon, hlat]
      rfl

/-- C5: where-clause semantics — a literal filters by equality, a list by
membership, null by IS NULL, all listed fields conjoined and unlisted
fields unconstrained; the result is the projection to the requested fields
of a stably sorted permutation of the matching rows. -/
theorem where_clause_semantics :
    ∀ (ts : TableSchema) (rows : List Row) (w : SqlWhere) (fs : SqlSelect)
      (ob : SqlOrderBy),
      (∀ f ∈ w.map (·.1), f ∈ schemaFields ts.cols) →
      (∀ f ∈ fs, f ∈ schemaFields ts.cols) →
      ∃ l₀, queryTable ts rows (some w) (some fs) ob = .ok (l₀.map (projectRow fs))
        ∧ List.Perm l₀ (rows.filter (matchesWhere w))
        ∧ (∀ r, r ∈ l₀ ↔ r ∈ rows
            ∧ (∀ f v, (f, Cond.lit v) ∈ w → rowGet r f = v)
            ∧ (∀ f vs, (f, Cond.inList vs) ∈ w → rowGet r f ∈ vs)
            ∧ (∀ f, (f, Cond.isNull) ∈ w → rowGet r f = .vNull))
        ∧ l₀.Pairwise (fun a b => keyLe ob a b = true)
        ∧ (∀ a b, List.Sublist [a, b] (rows.filter (matchesWhere w)) →
            keyLe ob a b = true → List.Sublist [a, b] l₀)
        ∧ (∀ r ∈ l₀.map (projectRow fs), r.map (·.1) = fs) := by
  intro ts rows w fs ob hw hf
  refine ⟨sortRows (keyLe ob) (rows.filter (matchesWhere w)), queryTable_ok hw hf,
    sortRows_perm _ _, ?_, sortRows_sorted (keyLe_trans ob) (keyLe_total ob) _, ?_, ?_⟩
  · intro r
    rw [(sortRows_perm _ _).mem_iff, List.mem_filter]
    exact and_congr_right (fun _ => matchesWhere_iff w r)
  · intro a b hsub hab
    exact sublist_sortRows (List.pairwise_pair.mpr hab) hsub
  · intro r hr
    obtain ⟨r₀, _, hreq⟩ := List.mem_map.mp hr
    rw [← hreq, projectRow, List.map_map]
    have hcomp : fs.map ((·.1) ∘ fun f => (f, rowGet r₀ f)) = fs.map (fun f => f) := rfl
    rw [hcomp, List.map_id']

/-- C9: the `/stops/:stopName` handler queries stops with the where-clause
`{ stop_id: stopName }` — matching the path parameter by equality against
the `stop_id` column, not against a stop-name field — and responds 200
with exactly the matching rows. -/
theorem stop_by_name_equality_on_stop_id :
    ∀ (registry : List TableSchema) (st : Store) (stopName : String) (ts : TableSchema),
      registry.find? (fun t => decide (t.name = "stops")) = some ts →
      "stop_id" ∈ schemaFields ts.cols →
      (schemaFields ts.cols).Nodup →
      (∀ r ∈ (storeRows st "stops").map (·.2), wellTypedRow ts.cols r = true) →
      stopByNameHandler registry st stopName =
        ⟨200, .rows (((storeRows st "stops").map (·.2)).filter
          (fun r => decide (rowGet r "stop_id" = .vStr stopName)))⟩ := by
  intro registry st stopName ts hfind hmem hnd hwt
  have hw1 : ∀ f ∈ ([("stop_id", Cond.lit (Value.vStr stopName))] : SqlWhere).map (·.1),
      f ∈ schemaFields ts.cols := by
    intro f hfm
    simp only [List.map_cons, List.map_nil, List.mem_singleton] at hfm
    rw [hfm]
    exact hmem
  have hquery : getStops registry st (some [("stop_id", .lit (.vStr stopName))]) none []
      = .ok (((storeRows st "stops").map (·.2)).filter
        (fun r => decide (rowGet r "stop_id" = .vStr stopName))) := by
    rw [getStops, getTable]
    simp only [hfind]
    rw [queryTable_ok_defaultFields hw1, sortRows_keyLe_nil]
    have hfc : ((storeRows st "stops").map (·.2)).filter
        (matchesWhere [("stop_id", .lit (.vStr stopName))])
        = ((storeRows st "stops").map (·.2)).filter
          (fun r => decide (rowGet r "stop_id" = .vStr stopName)) :=
      List.filter_congr (fun r _ => by rw [matchesWhere_single]; rfl)
    rw [hfc]
    have hproj : (((storeRows st "stops").map (·.2)).filter
        (fun r => decide (rowGet r "stop_id" = .vStr stopName))).map
          (projectRow (schemaFields ts.cols))
        = ((storeRows st "stops").map (·.2)).filter
          (fun r => decide (rowGet r "stop_id" = .vStr stopName)) := by
      have hid : (((storeRows st "stops").map (·.2)).filter
          (fun r => decide (rowGet r "stop_id" = .vStr stopName))).map
            (projectRow (schemaFields ts.cols))
          = (((storeRows st "stops").map (·.2)).filter
            (fun r => decide (rowGet r "stop_id" = .vStr stopName))).map id := by
        apply List.map_congr_left
        intro r hr
        exact projectRow_self hnd (hwt r (List.mem_filter.mp hr).1)
      rw [hid, List.map_id]
    rw [hproj]
  rw [stopByNameHandler]
  show (match getStops registry st (some [("stop_id", .lit (.vStr stopName))]) none [] with
    | .ok rows => (⟨200, .rows rows⟩ : HttpResponse)
    | .error _ => ⟨500, .obj [("error", "Internal Server Error")]⟩) = _
  rw [hquery]

/-- C1: an import is atomic per agency — on success every parsed table of
the feed is visible in full for the agency, and a primary-key duplicate in
any table of the import source fails the import with the visible store
unchanged (zero rows from the failed import, previous dataset intact). -/
theorem import_atomic_per_agency :
    (∀ (registry : List TableSchema) (st : Store) (key : String) (exclude : List String)
      (feed : Feed) (s' : Store),
      registryWF registry →
      importFeed registry st key exclude feed = .ok s' →
      ∀ ts ∈ registry, ts.name ∉ exclude → ∀ raw, alookup ts.name feed = some raw →
        agencyRows s' key ts.name = parseTable ts raw)
    ∧ (∀ (registry : List TableSchema) (st : Store) (key : String) (exclude : List String)
      (feed : Feed) (ts : TableSchema) (raw : List RawRow),
      ts ∈ registry → ts.name ∉ exclude → alookup ts.name feed = some raw →
      ¬ ((parseTable ts raw).map (rowKey ts.pk)).Nodup →
      (∃ e, importFeed registry st key exclude feed = .error e)
      ∧ runImport registry st key exclude feed = st) := by
  constructor
  · intro registry st key exclude feed s' hwf h ts hts hexc raw hraw
    have hspec := (importFeed_ok_spec hwf.1 h).1 ts hts
    rw [hspec, tableImportResult, if_neg hexc, hraw]
  · intro registry st key exclude feed ts raw hts hexc hraw hdup
    obtain ⟨e, he⟩ := importTables_error_of_dup hts hexc hraw hdup
    have himp : importFeed registry st key exclude feed = .error e := by
      rw [importFeed, he]
      rfl
    exact ⟨⟨e, himp⟩, runImport_error himp⟩

/-- C2: a successful re-import under the same agency key replaces the
whole dataset — afterwards each registry table holds exactly the second
feed's parsed rows (independently of the first feed), the agency has no
rows elsewhere, and other agencies' rows are untouched. -/
theorem reimport_replaces :
    ∀ (registry : List TableSchema) (st : Store) (key : String)
      (ex1 ex2 : List String) (feed1 feed2 : Feed) (s1 s2 : Store),
      registryWF registry →
      importFeed registry st key ex1 feed1 = .ok s1 →
      importFeed registry s1 key ex2 feed2 = .ok s2 →
      (∀ ts ∈ registry, agencyRows s2 key ts.name = tableImportResult ts ex2 feed2)
      ∧ (∀ tbl, tbl ∉ registry.map (·.name) → agencyRows s2 key tbl = [])
      ∧ (∀ k', k' ≠ key → ∀ tbl, agencyRows s2 k' tbl = agencyRows s1 k' tbl) := by
  intro registry st key ex1 ex2 feed1 feed2 s1 s2 hwf h1 h2
  have hspec := importFeed_ok_spec hwf.1 h2
  exact ⟨hspec.1, hspec.2.2, hspec.2.1⟩

/-- C3 counterexample: a feed whose required table is present with zero
data rows imports successfully, but its export omits the empty table, so
re-importing the export fails with `MissingRequiredTableError` — the
round-trip does not hold as stated. -/
theorem roundtrip_counterexample :
    importFeed [⟨"agency", [("agency_id", CType.tStr)], ["agency_id"], true⟩]
        emptyStore "a" [] [("agency", [])]
      = .ok [("agency", [])]
    ∧ exportAgency [⟨"agency", [("agency_id", CType.tStr)], ["agency_id"], true⟩]
        [("agency", [])] "a" = []
    ∧ importFeed [⟨"agency", [("agency_id", CType.tStr)], ["agency_id"], true⟩]
        emptyStore "a" []
        (exportAgency [⟨"agency", [("agency_id", CType.tStr)], ["agency_id"], true⟩]
          [("agency", [])] "a")
      = .error (.missingRequiredTable "agency") := by
  exact ⟨rfl, rfl, rfl⟩

/-- C3 as amended: the export/import round-trip restores every table's
rows exactly, provided each required table retains at least one row for
the agency (an exported feed omits empty tables, and a missing required
table aborts the re-import). -/
theorem roundtrip_amended :
    ∀ (registry : List TableSchema) (st : Store) (key : String) (feed : Feed) (s : Store),
      registryWF registry →
      importFeed registry st key [] feed = .ok s →
      (∀ ts ∈ registry, ts.required = true → agencyRows s key ts.name ≠ []) →
      ∃ s', importFeed registry s key [] (exportAgency registry s key) = .ok s'
        ∧ ∀ ts ∈ registry, agencyRows s' key ts.name = agencyRows s key ts.name := by
  intro registry st key feed s hwf h hreq
  obtain ⟨parsed1, hparsed1, _⟩ := except_map_ok _ _ _ h
  have hspec := importFeed_ok_spec hwf.1 h
  have hwtrows : ∀ ts ∈ registry, ∀ r ∈ agencyRows s key ts.name,
      wellTypedRow ts.cols r = true := by
    intro ts hts r hr
    rw [hspec.1 ts hts] at hr
    exact tableImportResult_wellTyped r hr
  have hkeys : ∀ ts ∈ registry,
      keysNodup ((agencyRows s key ts.name).map (rowKey ts.pk)) = true := by
    intro ts hts
    rw [hspec.1 ts hts]
    exact importTables_ok_keys hparsed1 hts
  have hall : ∀ ts ∈ registry, ∀ raw,
      alookup ts.name (exportAgency registry s key) = some raw →
      keysNodup ((parseTable ts raw).map (rowKey ts.pk)) = true := by
    intro ts hts raw hraw
    rw [exportAgency_lookup hwf.1 hts] at hraw
    by_cases hemp : (agencyRows s key ts.name).isEmpty = true
    · rw [if_pos hemp] at hraw
      simp at hraw
    · rw [if_neg hemp] at hraw
      have hraweq : raw = (agencyRows s key ts.name).map (exportRow ts.cols) := by
        simpa using hraw.symm
      rw [hraweq, parseTable_export (hwf.2 ts hts) (hwtrows ts hts)]
      exact hkeys ts hts
  have hreq2 : ∀ ts ∈ registry, ts.required = true →
      ts.name ∈ ([] : List String) ∨ ∃ raw,
        alookup ts.name (exportAgency registry s key) = some raw := by
    intro ts hts hr
    right
    rw [exportAgency_lookup hwf.1 hts]
    have hne := hreq ts hts hr
    have hemp : (agencyRows s key ts.name).isEmpty = false := by
      cases hval : agencyRows s key ts.name with
      | nil => exact absurd hval hne
      | cons a l => rfl
    rw [if_neg (fun hc => by rw [hemp] at hc; exact Bool.false_ne_true hc)]
    exact ⟨_, rfl⟩
  obtain ⟨parsed2, hparsed2⟩ := importTables_ok_of hall hreq2
  have h2 : importFeed registry s key [] (exportAgency registry s key)
      = .ok (applyParsed key parsed2 (removeAgency s key)) := by
    rw [importFeed, hparsed2]
    rfl
  refine ⟨applyParsed key parsed2 (removeAgency s key), h2, ?_⟩
  intro ts hts
  have hspec2 := importFeed_ok_spec hwf.1 h2
  rw [hspec2.1 ts hts, tableImportResult,
    if_neg (by simp : ¬ ts.name ∈ ([] : List String)),
    exportAgency_lookup hwf.1 hts]
  by_cases hemp : (agencyRows s key ts.name).isEmpty = true
  · rw [if_pos hemp]
    have hnil : agencyRows s key ts.name = [] := by
      cases hval : agencyRows s key ts.name with
      | nil => rfl
      | cons a l =>
        rw [hval] at hemp
        simp at hemp
    rw [hnil]
  · rw [if_neg hemp]
    show parseTable ts ((agencyRows s key ts.name).map (exportRow ts.cols))
      = agencyRows s key ts.name
    exact parseTable_export (hwf.2 ts hts) (hwtrows ts hts)

/-! ## Concrete fixtures for witnesses -/

instance decEqRow : DecidableEq Row := inferInstance

instance decEqTaggedRows : DecidableEq (List (String × Row)) := inferInstance

instance decEqStoreEntry : DecidableEq (String × List (String × Row)) := inferInstance

instance decEqStore : DecidableEq Store := inferInstance

instance decEqRawRow : DecidableEq RawRow := inferInstance

instance decEqRawTable : DecidableEq (List RawRow) := inferInstance

instance decEqFeedEntry : DecidableEq (String × List RawRow) := inferInstance

instance decEqFeed : DecidableEq Feed := inferInstance

instance {ε α : Type} [DecidableEq ε] [DecidableEq α] : DecidableEq (Except ε α) := by
  intro x y
  cases x <;> cases y
  case error.error a b =>
    by_cases h : a = b
    · exact isTrue (by rw [h])
    · exact isFalse (fun hc => h (by cases hc; rfl))
  case error.ok a b => exact isFalse (fun hc => by cases hc)
  case ok.error a b => exact isFalse (fun hc => by cases hc)
  case ok.ok a b =>
    by_cases h : a = b
    · exact isTrue (by rw [h])
    · exact isFalse (fun hc => h (by cases hc; rfl))

/-- A small stops schema. -/
def stopsTS : TableSchema :=
  ⟨"stops", [("stop_id", .tStr), ("stop_lat", .tCoordOpt), ("stop_lon", .tCoordOpt)],
    ["stop_id"], true⟩

/-- One-table registry. -/
def sampleRegistry : List TableSchema := [stopsTS]

/-- Feed with one fully-populated stop. -/
def sampleFeed1 : Feed :=
  [("stops", [[("stop_id", "s1"), ("stop_lat", "41"), ("stop_lon", "-8")]])]

/-- Feed with one stop and no coordinates. -/
def sampleFeed2 : Feed := [("stops", [[("stop_id", "s2")]])]

/-- Feed with a duplicated primary key. -/
def sampleFeedDup : Feed := [("stops", [[("stop_id", "s1")], [("stop_id", "s1")]])]

/-- Stored row parsed from `sampleFeed1`. -/
def sampleRow1 : Row := [("stop_id", .vStr "s1"), ("stop_lat", .vNum 41), ("stop_lon", .vNum (-8))]

/-- Stored row parsed from `sampleFeed2`. -/
def sampleRow2 : Row := [("stop_id", .vStr "s2"), ("stop_lat", .vNull), ("stop_lon", .vNull)]

/-- Store after importing `sampleFeed1` into the empty store. -/
def sampleStore1 : Store := [("stops", [("a", sampleRow1)])]

/-- Store after re-importing `sampleFeed2` over `sampleStore1`. -/
def sampleStore2 : Store := [("stops", [("a", sampleRow2)]), ("stops", [])]

/-- Store holding both rows for agency `a`. -/
def sampleStoreBoth : Store := [("stops", [("a", sampleRow1), ("a", sampleRow2)])]

/-- Witness for C1: the feed's parsed stops are visible after a successful
import, and a duplicated primary key fails the import leaving the store
unchanged. -/
theorem import_atomic_per_agency_witness :
    (agencyRows sampleStore1 "a" "stops"
      = parseTable stopsTS [[("stop_id", "s1"), ("stop_lat", "41"), ("stop_lon", "-8")]])
    ∧ (∃ e, importFeed sampleRegistry emptyStore "a" [] sampleFeedDup = .error e)
    ∧ runImport sampleRegistry emptyStore "a" [] sampleFeedDup = emptyStore := by
  have hfail := import_atomic_per_agency.2 sampleRegistry emptyStore "a" [] sampleFeedDup
    stopsTS [[("stop_id", "s1")], [("stop_id", "s1")]] (by decide) (by decide) (by decide)
    (by decide)
  exact ⟨import_atomic_per_agency.1 sampleRegistry emptyStore "a" [] sampleFeed1 sampleStore1
    (by decide) (by decide) stopsTS (by decide) (by decide)
    [[("stop_id", "s1"), ("stop_lat", "41"), ("stop_lon", "-8")]] (by decide),
    hfail.1, hfail.2⟩

/-- Witness for C2: after re-importing `sampleFeed2` over `sampleFeed1`,
only the second feed's stop is queryable for the agency. -/
theorem reimport_replaces_witness :
    (agencyRows sampleStore2 "a" "stops" = tableImportResult stopsTS [] sampleFeed2)
    ∧ agencyRows sampleStore2 "a" "stops" = [sampleRow2] := by
  have hrep := (reimport_replaces sampleRegistry emptyStore "a" [] [] sampleFeed1 sampleFeed2
    sampleStore1 sampleStore2 (by decide) (by decide) (by decide)).1 stopsTS
    (List.mem_cons_self _ _)
  exact ⟨hrep, by decide⟩

/-- Witness for the amended C3: exporting and re-importing an agency whose
required table is nonempty restores the same rows. -/
theorem roundtrip_amended_witness :
    ∃ s', importFeed sampleRegistry sampleStore1 "a" []
        (exportAgency sampleRegistry sampleStore1 "a") = .ok s'
      ∧ ∀ ts ∈ sampleRegistry,
          agencyRows s' "a" ts.name = agencyRows sampleStore1 "a" ts.name :=
  roundtrip_amended sampleRegistry emptyStore "a" sampleFeed1 sampleStore1
    (by decide) (by decide) (by decide)

/-- Witness for C4: over a store with one valid-coordinate stop and one
without coordinates, the GeoJSON query succeeds with the filtered features
and the feature count is bounded by the row count. -/
theorem geojson_one_feature_per_valid_row_witness :
    (getStopsAsGeoJSON sampleRegistry sampleStoreBoth none
      = .ok ([sampleRow1, sampleRow2].filterMap stopFeature))
    ∧ ([sampleRow1, sampleRow2].filterMap stopFeature).length
        ≤ [sampleRow1, sampleRow2].length := by
  have hg := geojson_one_feature_per_valid_row sampleRegistry sampleStoreBoth none
    [sampleRow1, sampleRow2] (by decide)
  exact ⟨hg.1, hg.2.1⟩

/-- Witness for C5 at a concrete equality query with projection and an
ascending sort key. -/
theorem where_clause_semantics_witness :
    ∃ l₀, queryTable stopsTS [sampleRow1, sampleRow2]
        (some [("stop_id", Cond.lit (Value.vStr "s1"))]) (some ["stop_id"])
        [("stop_id", Dir.asc)]
        = .ok (l₀.map (projectRow ["stop_id"]))
      ∧ List.Perm l₀ ([sampleRow1, sampleRow2].filter
          (matchesWhere [("stop_id", Cond.lit (Value.vStr "s1"))]))
      ∧ (∀ r, r ∈ l₀ ↔ r ∈ [sampleRow1, sampleRow2]
          ∧ (∀ f v, (f, Cond.lit v) ∈ [("stop_id", Cond.lit (Value.vStr "s1"))]
              → rowGet r f = v)
          ∧ (∀ f vs, (f, Cond.inList vs) ∈ [("stop_id", Cond.lit (Value.vStr "s1"))]
              → rowGet r f ∈ vs)
          ∧ (∀ f, (f, Cond.isNull) ∈ [("stop_id", Cond.lit (Value.vStr "s1"))]
              → rowGet r f = .vNull))
      ∧ l₀.Pairwise (fun a b => keyLe [("stop_id", Dir.asc)] a b = true)
      ∧ (∀ a b, List.Sublist [a, b] ([sampleRow1, sampleRow2].filter
            (matchesWhere [("stop_id", Cond.lit (Value.vStr "s1"))])) →
          keyLe [("stop_id", Dir.asc)] a b = true → List.Sublist [a, b] l₀)
      ∧ (∀ r ∈ l₀.map (projectRow ["stop_id"]), r.map (·.1) = ["stop_id"]) :=
  where_clause_semantics stopsTS [sampleRow1, sampleRow2]
    [("stop_id", Cond.lit (Value.vStr "s1"))] ["stop_id"] [("stop_id", Dir.asc)]
    (by decide) (by decide)

/-- Witness for C9: requesting `/stops/s1` answers 200 with exactly the
row whose `stop_id` is `s1`. -/
theorem stop_by_name_equality_on_stop_id_witness :
    (stopByNameHandler sampleRegistry sampleStoreBoth "s1"
      = ⟨200, .rows (((storeRows sampleStoreBoth "stops").map (·.2)).filter
          (fun r => decide (rowGet r "stop_id" = .vStr "s1")))⟩)
    ∧ ((storeRows sampleStoreBoth "stops").map (·.2)).filter
        (fun r => decide (rowGet r "stop_id" = .vStr "s1")) = [sampleRow1] := by
  refine ⟨stop_by_name_equality_on_stop_id sampleRegistry sampleStoreBoth "s1" stopsTS
    (by decide) (by decide) (by decide) (by decide), by decide⟩

end Gtfs
